import Mathlib

/-!
# Verification of the company email scraper core

A shallow embedding, in Lean 4, of `src/agent/web_scraper_agent.py`
(class `EmailScraper` and its helpers).  Text is modelled as `List Char`
(Python `str`), Python sets of strings are modelled as duplicate-free
`List (List Char)` in first-insertion order (the source iterates over
unordered `set` objects; we fix first-discovery order as the documented
deterministic tie-break), and the external HTTP/HTML collaborators are
modelled as an oracle `fetch : List Char → Option FetchedPage` whose
fields carry the already-parsed page signals (visible text, hrefs
resolved to absolute URLs by the external `urljoin`, script bodies,
meta contents, data attributes, entity-decoded raw HTML).

`re.findall` with the big RFC-5322-like email pattern is modelled as a
left-to-right maximal-munch scan using a structural full-match decider
for the pattern (`emailFullMatch`); for this pattern leftmost greedy
backtracking and leftmost-longest agree on all inputs exercised here.
The two obfuscation patterns are modelled with a small backtracking
matcher (`reSeqMatch`) whose preference order (greedy quantifiers try
longest first, alternatives left first) mirrors the Python `re` engine.
-/

namespace Scraper

/-! ## Character classes (ASCII, as used by the Python regexes) -/

/-- ASCII lowercase letter. -/
def isLowerC (c : Char) : Bool := 97 ≤ c.toNat && c.toNat ≤ 122

/-- ASCII uppercase letter. -/
def isUpperC (c : Char) : Bool := 65 ≤ c.toNat && c.toNat ≤ 90

/-- ASCII letter, `[a-zA-Z]`. -/
def isAlphaC (c : Char) : Bool := isLowerC c || isUpperC c

/-- ASCII digit, `[0-9]`. -/
def isDigitC (c : Char) : Bool := 48 ≤ c.toNat && c.toNat ≤ 57

/-- ASCII letter or digit, `[a-zA-Z0-9]`. -/
def isAlnumC (c : Char) : Bool := isAlphaC c || isDigitC c

/-- Python `\s` on ASCII: space, tab, newline, carriage return, form feed,
vertical tab. -/
def isWsC (c : Char) : Bool :=
  c.toNat = 32 || c.toNat = 9 || c.toNat = 10 || c.toNat = 13 ||
  c.toNat = 11 || c.toNat = 12

/-- Python `str.lower` restricted to ASCII (the only case folding the
scraped byte strings need). -/
def toLowerC (c : Char) : Char :=
  if 65 ≤ c.toNat && c.toNat ≤ 90 then Char.ofNat (c.toNat + 32) else c

/-- Lowercase a string. -/
def toLowerL (s : List Char) : List Char := s.map toLowerC

/-! ## Generic list-as-set utilities -/

/-- Python `set.add` on an insertion-ordered duplicate-free list. -/
def listInsert (xs : List (List Char)) (x : List Char) : List (List Char) :=
  if x ∈ xs then xs else xs ++ [x]

/-- Python `set.update` (union), keeping first-insertion order. -/
def listUnion (xs ys : List (List Char)) : List (List Char) :=
  ys.foldl listInsert xs

/-- Collapse a list to a duplicate-free list keeping first occurrences
(the deterministic model of materializing a Python `set`). -/
def dedupFirst (xs : List (List Char)) : List (List Char) :=
  xs.foldl listInsert []

/-- Split a character list on a separator character (Python `str.split(sep)`
for a one-character separator: no empty-separator semantics needed). -/
def splitOnC (sep : Char) : List Char → List (List Char)
  | [] => [[]]
  | c :: cs =>
    let rest := splitOnC sep cs
    if c = sep then [] :: rest
    else match rest with
      | [] => [[c]]
      | r :: rs => (c :: r) :: rs

/-- Python `str.strip()` restricted to ASCII whitespace. -/
def stripWs (s : List Char) : List Char :=
  ((s.dropWhile isWsC).reverse.dropWhile isWsC).reverse

/-- Python `pat in s` (substring test). -/
def containsSub (pat : List Char) : List Char → Bool
  | [] => pat.isEmpty
  | c :: cs => pat.isPrefixOf (c :: cs) || containsSub pat cs

end Scraper

namespace Scraper

/-! ## The primary email pattern (the RFC-5322-like regex on line 48)

`emailFullMatch e` decides whether `e` is matched, in full, by the big
email pattern: a local part that is either a dot-atom
`A+(\.A+)*` over the atom characters or a quoted string, then `@`, then
either at least two dot-separated hostname labels or a bracketed IP
literal.  The `re.IGNORECASE` flag is irrelevant: every letter class in
the pattern already contains both cases. -/

/-- Atom characters of the local part:
the alphanumerics together with the codePoints of
the specials in the regex class. -/
def atomCharB (c : Char) : Bool :=
  isAlnumC c ||
  [33, 35, 36, 37, 38, 39, 42, 43, 45, 47, 61, 63, 94, 95, 96,
   123, 124, 125, 126].contains c.toNat

/-- Dot-atom local part, `A+(\.A+)*`. -/
def dotAtomB (l : List Char) : Bool :=
  !l.isEmpty && (splitOnC '.' l).all (fun p => !p.isEmpty && p.all atomCharB)

/-- Characters allowed unescaped inside a quoted local part:
`[\x01-\x08\x0b\x0c\x0e-\x1f\x21\x23-\x5b\x5d-\x7f]`. -/
def qcharB (c : Char) : Bool :=
  let n := c.toNat
  (1 ≤ n && n ≤ 8) || n = 11 || n = 12 || (14 ≤ n && n ≤ 31) ||
  n = 33 || (35 ≤ n && n ≤ 91) || (93 ≤ n && n ≤ 127)

/-- Characters allowed after a backslash escape:
`[\x01-\x09\x0b\x0c\x0e-\x7f]`. -/
def echarB (c : Char) : Bool :=
  let n := c.toNat
  (1 ≤ n && n ≤ 9) || n = 11 || n = 12 || (14 ≤ n && n ≤ 127)

/-- Scan the inside of a quoted local part (after the opening quote) up to
and including the closing quote; return the remaining characters.  The
scan is deterministic: the quote and the backslash are in neither
character class. -/
def quotedRest : List Char → Option (List Char)
  | [] => none
  | c :: cs =>
    if c.toNat = 34 then some cs
    else if c.toNat = 92 then
      match cs with
      | [] => none
      | e :: cs2 => if echarB e then quotedRest cs2 else none
    else if qcharB c then quotedRest cs else none

/-- One hostname label, `[a-zA-Z0-9](?:[a-zA-Z0-9-]*[a-zA-Z0-9])?`. -/
def labelB : List Char → Bool
  | [] => false
  | c :: rest =>
    isAlnumC c &&
    (rest.isEmpty ||
      (rest.dropLast.all (fun x => isAlnumC x || x = '-') &&
       isAlnumC (rest.getLastD c)))

/-- Hostname domain: at least two dot-separated labels,
`(?:label\.)+label`. -/
def domainLabelsB (d : List Char) : Bool :=
  let ps := splitOnC '.' d
  2 ≤ ps.length && ps.all labelB

/-- Numeric value of a digit string. -/
def natOfDigits (p : List Char) : Nat :=
  p.foldl (fun a c => a * 10 + (c.toNat - 48)) 0

/-- One IPv4 octet, `25[0-5]|2[0-4][0-9]|[01]?[0-9][0-9]?`:
one or two digits, or three digits of value at most 255. -/
def octetB (p : List Char) : Bool :=
  p.all isDigitC &&
  (p.length = 1 || p.length = 2 || (p.length = 3 && natOfDigits p ≤ 255))

/-- Consume `octet.` from the front (the octet is followed by a literal
dot, so it is exactly the maximal digit run). -/
def takeOctetDot (s : List Char) : Option (List Char) :=
  let ds := s.takeWhile isDigitC
  if octetB ds then
    match s.drop ds.length with
    | c :: cs => if c = '.' then some cs else none
    | [] => none
  else none

/-- Characters of the IP-literal tail class,
`[\x01-\x08\x0b\x0c\x0e-\x1f\x21-\x5a\x53-\x7f]` (the overlapping
ranges are kept exactly as written in the source pattern). -/
def ipTailCharB (c : Char) : Bool :=
  let n := c.toNat
  (1 ≤ n && n ≤ 8) || n = 11 || n = 12 || (14 ≤ n && n ≤ 31) ||
  (33 ≤ n && n ≤ 90) || (83 ≤ n && n ≤ 127)

/-- `(tailchar|\\echar)*`: some parse of the whole suffix exists. -/
def ipTailOk : List Char → Bool
  | [] => true
  | c :: cs =>
    (ipTailCharB c && ipTailOk cs) ||
    (c.toNat = 92 &&
      match cs with
      | e :: cs2 => echarB e && ipTailOk cs2
      | [] => false)

/-- The name before the colon in the IP literal tail,
`[a-zA-Z0-9-]*[a-zA-Z0-9]`. -/
def ipNameB (p : List Char) : Bool :=
  !p.isEmpty && p.all (fun c => isAlnumC c || c = '-') &&
  isAlnumC (p.getLastD '-')

/-- Inside of the bracketed IP literal:
`(?:octet\.){3}(?:octet|name:(tailchar|\\echar)+)`. -/
def ipInnerB (s : List Char) : Bool :=
  match takeOctetDot s with
  | none => false
  | some s1 =>
    match takeOctetDot s1 with
    | none => false
    | some s2 =>
      match takeOctetDot s2 with
      | none => false
      | some s3 =>
        octetB s3 ||
        (let name := s3.takeWhile (fun c => c ≠ ':')
         match s3.drop name.length with
         | c :: tail => c = ':' && ipNameB name && !tail.isEmpty && ipTailOk tail
         | [] => false)

/-- Bracketed IP literal domain, `\[ ... \]`. -/
def ipLiteralB : List Char → Bool
  | [] => false
  | c :: rest =>
    c = '[' &&
    (match rest.getLast? with
     | some lc => lc = ']' && ipInnerB rest.dropLast
     | none => false)

/-- Domain of the primary pattern. -/
def domainB (d : List Char) : Bool := domainLabelsB d || ipLiteralB d

/-- Full match of the primary email pattern. -/
def emailFullMatch (e : List Char) : Bool :=
  match e with
  | [] => false
  | c :: cs =>
    if c.toNat = 34 then
      match quotedRest cs with
      | some ('@' :: d) => domainB d
      | _ => false
    else
      let l := e.takeWhile (fun x => x ≠ '@')
      match e.drop l.length with
      | '@' :: d => dotAtomB l && domainB d
      | _ => false

/-- Longest `n ≤ bound` such that the first `n` characters of `s` fully
match the email pattern. -/
def findEmailLen (s : List Char) : Nat → Option Nat
  | 0 => none
  | n + 1 =>
    if emailFullMatch (s.take (n + 1)) then some (n + 1) else findEmailLen s n

/-- Scan worker for `emailFindall`; the fuel only bounds the recursion
depth and never runs out when it starts at the length of the string
(every step consumes at least one character). -/
def emailFindallAux : Nat → List Char → List (List Char)
  | 0, _ => []
  | _, [] => []
  | fuel + 1, c :: cs =>
    match findEmailLen (c :: cs) (cs.length + 1) with
    | some n => (c :: cs).take n :: emailFindallAux fuel ((c :: cs).drop (max n 1))
    | none => emailFindallAux fuel cs

/-- `re.findall` with the primary pattern, modelled as a left-to-right,
non-overlapping, maximal-munch scan (see the module comment). -/
def emailFindall (s : List Char) : List (List Char) :=
  emailFindallAux s.length s

end Scraper

namespace Scraper

/-! ## `EmailScraper.extract_emails_from_text` (lines 40-106) -/

/-- Line 44: `text.replace('\n', ' ').replace('\r', ' ')`. -/
def normalizeText (t : List Char) : List Char :=
  t.map (fun c => if c = '\n' ∨ c = '\r' then ' ' else c)

/-- The fixed placeholder-domain exclusion list (lines 88-93). -/
def excludeDomains : List (List Char) :=
  ["example.com".toList, "test.com".toList, "domain.com".toList,
   "email.com".toList, "yourcompany".toList, "company.com".toList,
   "youremail".toList, "placeholder".toList, "sampleemail".toList,
   "wixpress.com".toList, "sentry.io".toList, "w3.org".toList,
   "schema.org".toList, "xmlns.com".toList, "xmlsoap.org".toList]

/-- Local part of the stricter final pattern,
`[a-zA-Z0-9][a-zA-Z0-9._-]*`. -/
def simpleLocalB : List Char → Bool
  | [] => false
  | c :: rest =>
    isAlnumC c && rest.all (fun x => isAlnumC x || x = '.' || x = '_' || x = '-')

/-- Domain part of the stricter final pattern,
`[a-zA-Z0-9][a-zA-Z0-9.-]*\.[a-zA-Z]{2,}` anchored at the end: everything
after the last dot is alphabetic of length at least 2, and the prefix
before that dot is alphanumeric-leading over `[a-zA-Z0-9.-]`. -/
def simpleDomainB (d : List Char) : Bool :=
  let rd := d.reverse
  let tld := rd.takeWhile isAlphaC
  2 ≤ tld.length &&
  (match rd.drop tld.length with
   | dot :: rp =>
     dot = '.' &&
     (match rp.reverse with
      | [] => false
      | c :: rest => isAlnumC c && rest.all (fun x => isAlnumC x || x = '.' || x = '-'))
   | [] => false)

/-- The stricter final re-check (line 103):
`re.match(r'^[a-zA-Z0-9][a-zA-Z0-9._-]*@[a-zA-Z0-9][a-zA-Z0-9.-]*\.[a-zA-Z]{2,}$', email)`. -/
def finalCheckB (e : List Char) : Bool :=
  let l := e.takeWhile (fun x => x ≠ '@')
  match e.drop l.length with
  | '@' :: d => simpleLocalB l && simpleDomainB d
  | _ => false

/-- The validation pipeline applied to each stripped, lowercased raw match
(lines 56-103, in source order): `@` present, length bounds, local and
domain bounds, placeholder-domain exclusion, no-reply prefixes, and the
stricter final pattern. -/
def cleanEmailFilter (e : List Char) : Bool :=
  e.contains '@' &&
  (6 ≤ e.length && e.length ≤ 254) &&
  (let l := e.takeWhile (fun x => x ≠ '@')
   let d := e.drop (l.length + 1)
   (1 ≤ l.length && l.length ≤ 64) &&
   d.contains '.' &&
   2 ≤ (splitOnC '.' d).length &&
   2 ≤ ((splitOnC '.' d).getLastD []).length &&
   !(excludeDomains.any (fun x => containsSub x e)) &&
   !(("noreply".toList.isPrefixOf e) || ("no-reply".toList.isPrefixOf e) ||
     ("donotreply".toList.isPrefixOf e)) &&
   finalCheckB e)

/-- `EmailScraper.extract_emails_from_text`: normalize, find all raw
matches of the primary pattern, strip and lowercase each, keep the
survivors of the validation pipeline as a set (first-insertion order). -/
def extract_emails_from_text (text : List Char) : List (List Char) :=
  dedupFirst
    (((emailFindall (normalizeText text)).map
        (fun m => toLowerL (stripWs m))).filter cleanEmailFilter)

end Scraper

namespace Scraper

/-! ## The obfuscated-email patterns (lines 184-195)

The two patterns are flat sequences of greedy character-class
repetitions, literals and optional literals, so they are modelled with a
small backtracking sequence matcher: each element offers its possible
consumed lengths in the `re` engine's preference order (greedy classes
longest first, left alternative first, an optional literal present
first), and the continuation backtracks through them. -/

/-- One element of a flat pattern. -/
inductive RE
  | cls (p : Char → Bool) (minRep : Nat)
  | lit (l : List Char)
  | alt (a b : RE)

/-- Candidate consumed lengths of one element at the front of `s`, in
preference order.  Literals compare case-insensitively
(`re.IGNORECASE`). -/
def reChoices : RE → List Char → List Nat
  | .cls p m, s =>
    let r := (s.takeWhile p).length
    if r < m then [] else (List.range (r - m + 1)).map (fun i => r - i)
  | .lit l, s =>
    if (toLowerL l).isPrefixOf (toLowerL s) then [l.length] else []
  | .alt a b, s => reChoices a s ++ reChoices b s

/-- Backtracking matcher for a flat pattern at the front of `s`; returns
the consumed length of each element of the first (leftmost-preference)
global match. -/
def reSeqMatch : List RE → List Char → Option (List Nat)
  | [], _ => some []
  | r :: rs, s =>
    (reChoices r s).findSome? (fun n => (reSeqMatch rs (s.drop n)).map (n :: ·))

/-- An optional one-character literal such as `\[?`. -/
def optLit (l : List Char) : RE := .alt (.lit l) (.lit [])

/-- `[a-zA-Z0-9._-]`, the local-part group of both patterns. -/
def obfLocalC (c : Char) : Bool := isAlnumC c || c = '.' || c = '_' || c = '-'

/-- `[a-zA-Z0-9.-]`, the domain group of both patterns. -/
def obfDomainC (c : Char) : Bool := isAlnumC c || c = '.' || c = '-'

/-- First obfuscation pattern (line 186):
`([a-zA-Z0-9._-]+)\s*(?:\[at\]|\(at\))\s*([a-zA-Z0-9.-]+)\s*(?:\[dot\]|\(dot\))\s*([a-zA-Z]{2,})`;
the three capture groups sit at element indexes 0, 4 and 8. -/
def obfPattern1 : List RE :=
  [.cls obfLocalC 1, .cls isWsC 0, .alt (.lit "[at]".toList) (.lit "(at)".toList),
   .cls isWsC 0, .cls obfDomainC 1, .cls isWsC 0,
   .alt (.lit "[dot]".toList) (.lit "(dot)".toList), .cls isWsC 0,
   .cls isAlphaC 2]

/-- Second obfuscation pattern (line 187):
`([a-zA-Z0-9._-]+)\s*\[?\(?at\)?\]?\s*([a-zA-Z0-9.-]+)\s*\[?\(?dot\)?\]?\s*([a-zA-Z]{2,})`;
the three capture groups sit at element indexes 0, 8 and 16. -/
def obfPattern2 : List RE :=
  [.cls obfLocalC 1, .cls isWsC 0,
   optLit "[".toList, optLit "(".toList, .lit "at".toList, optLit ")".toList,
   optLit "]".toList,
   .cls isWsC 0, .cls obfDomainC 1, .cls isWsC 0,
   optLit "[".toList, optLit "(".toList, .lit "dot".toList, optLit ")".toList,
   optLit "]".toList,
   .cls isWsC 0, .cls isAlphaC 2]

/-- The capture group at element index `i` of a match with consumed
lengths `lens`, taken from the front of `s`. -/
def grpAt (s : List Char) (lens : List Nat) (i : Nat) : List Char :=
  (s.drop (lens.take i).sum).take (lens.getD i 0)

/-- `re.findall` for a flat three-group pattern, as a left-to-right,
non-overlapping scan; the fuel never runs out when it starts at the
length of the string. -/
def obfFindallAux (pat : List RE) (g1 g2 g3 : Nat) :
    Nat → List Char → List (List Char × List Char × List Char)
  | 0, _ => []
  | _, [] => []
  | fuel + 1, c :: cs =>
    match reSeqMatch pat (c :: cs) with
    | some lens =>
      (grpAt (c :: cs) lens g1, grpAt (c :: cs) lens g2, grpAt (c :: cs) lens g3) ::
        obfFindallAux pat g1 g2 g3 fuel ((c :: cs).drop (max lens.sum 1))
    | none => obfFindallAux pat g1 g2 g3 fuel cs

/-- `re.findall` of one obfuscation pattern over a text. -/
def obfFindall (pat : List RE) (g1 g2 g3 : Nat) (s : List Char) :
    List (List Char × List Char × List Char) :=
  obfFindallAux pat g1 g2 g3 s.length s

/-- Lines 184-195: run both obfuscation patterns over the (decoded) HTML,
rebuild `local@domain.tld` for every match and keep whatever the
extractor validates. -/
def decode_obfuscated (text : List Char) : List (List Char) :=
  let ms := obfFindall obfPattern1 0 4 8 text ++ obfFindall obfPattern2 0 8 16 text
  ms.foldl
    (fun acc m =>
      listUnion acc
        (extract_emails_from_text
          (stripWs m.1 ++ '@' :: (stripWs m.2.1 ++ '.' :: stripWs m.2.2))))
    []

end Scraper

namespace Scraper

/-! ## URLs: `urlparse(...).netloc` and the fragment/query stripping -/

/-- Characters allowed in a URL scheme after the leading letter. -/
def isSchemeChar (c : Char) : Bool := isAlnumC c || c = '+' || c = '-' || c = '.'

/-- Drop a leading `scheme:` when present (the scheme is the part before
the first colon when it is a letter followed by scheme characters),
as `urllib.parse` does. -/
def stripScheme (u : List Char) : List Char :=
  let pre := u.takeWhile (fun c => c ≠ ':')
  if pre.length < u.length && !pre.isEmpty && isAlphaC (pre.headD ' ') &&
      pre.all isSchemeChar
  then u.drop (pre.length + 1) else u

/-- After the scheme, a `//` introduces the network location, which runs
to the next `/`, `?` or `#`; otherwise there is none. -/
def netlocBody : List Char → List Char
  | '/' :: '/' :: rest => rest.takeWhile (fun c => !(c = '/' || c = '?' || c = '#'))
  | _ => []

/-- `urlparse(u).netloc`. -/
def netloc (u : List Char) : List Char := netlocBody (stripScheme u)

/-- Line 35: `full_url.split('#')[0].split('?')[0]`. -/
def stripQF (u : List Char) : List Char :=
  (u.takeWhile (fun c => c ≠ '#')).takeWhile (fun c => c ≠ '?')

/-- The path-plus-query portion of a URL (what follows the network
location, fragment excluded).  Used only to state the spec's
"path or query contains a keyword" property; the source never computes
it. -/
def pathQueryOf (u : List Char) : List Char :=
  match stripScheme u with
  | '/' :: '/' :: rest =>
    (rest.dropWhile (fun c => !(c = '/' || c = '?' || c = '#'))).takeWhile
      (fun c => c ≠ '#')
  | r => r.takeWhile (fun c => c ≠ '#')

/-! ## `EmailScraper.find_all_internal_links` (lines 23-38)

The external `urljoin` collaborator is modelled as the identity: the
oracle supplies anchor hrefs already resolved to absolute URLs. -/

/-- Keep the hrefs on the page's own domain, stripped of fragment and
query, as a set in first-insertion order. -/
def find_all_internal_links (url : List Char) (hrefs : List (List Char)) :
    List (List Char) :=
  hrefs.foldl
    (fun acc href => if netloc href = netloc url then listInsert acc (stripQF href) else acc)
    []

/-! ## `EmailScraper.prioritize_urls` (lines 108-127) -/

/-- The fixed relevance-keyword list (lines 110-114). -/
def priorityKeywords : List (List Char) :=
  ["contact".toList, "career".toList, "careers".toList, "jobs".toList,
   "join".toList, "team".toList, "about".toList, "hiring".toList,
   "recruit".toList, "work".toList, "opportunity".toList, "hr".toList,
   "human-resources".toList, "employment".toList, "apply".toList]

/-- Line 121: `any(keyword in url_lower for keyword in priority_keywords)`
over the whole lowercased URL string. -/
def hasPriorityKw (u : List Char) : Bool :=
  priorityKeywords.any (fun kw => containsSub kw (toLowerL u))

/-- Partition the frontier into keyword-bearing URLs and the rest, keyword
group first, preserving discovery order inside each group. -/
def prioritize_urls (urls : List (List Char)) : List (List Char) :=
  urls.filter hasPriorityKw ++ urls.filter (fun u => !hasPriorityKw u)

/-! ## `EmailScraper.scrape_single_page` (lines 129-203)

The HTTP client and the HTML parser are external collaborators: the
oracle `fetch` returns `none` for a transport failure (the `except`
swallows it and the page contributes nothing) and otherwise a
`FetchedPage` carrying the parsed signals. -/

/-- The parsed signals of one successfully fetched page. -/
structure FetchedPage where
  /-- `html.unescape(response.text)` (entity decoding is external). -/
  decodedHtml : List Char
  /-- `soup.get_text(separator=' ', strip=True)`. -/
  pageText : List Char
  /-- Anchor href values, resolved to absolute URLs by `urljoin`. -/
  hrefs : List (List Char)
  /-- `data-email` attribute values. -/
  dataEmails : List (List Char)
  /-- Script element text contents (empty string when `script.string` is
  `None`). -/
  scriptTexts : List (List Char)
  /-- Meta element `content` attribute values. -/
  metaContents : List (List Char)
deriving DecidableEq

/-- Python `s.replace(pat, rep)`: left-to-right, non-overlapping; the fuel
starts at the length of the string and never runs out. -/
def replaceSubAux (pat rep : List Char) : Nat → List Char → List Char
  | 0, s => s
  | _, [] => []
  | fuel + 1, c :: cs =>
    if pat.isPrefixOf (c :: cs) && !pat.isEmpty then
      rep ++ replaceSubAux pat rep fuel ((c :: cs).drop pat.length)
    else c :: replaceSubAux pat rep fuel cs

/-- Python `s.replace(pat, rep)` for a non-empty pattern. -/
def replaceSub (pat rep s : List Char) : List Char :=
  replaceSubAux pat rep s.length s

/-- Line 157: `href.lower().replace('mailto:', '').split('?')[0].split('&')[0]`. -/
def mailtoTarget (href : List Char) : List Char :=
  ((replaceSub "mailto:".toList [] (toLowerL href)).takeWhile
      (fun c => c ≠ '?')).takeWhile (fun c => c ≠ '&')

/-- One page's email set and same-domain link set; a failed fetch yields
both empty (lines 200-203). -/
def scrape_single_page (fetch : List Char → Option FetchedPage) (url : List Char) :
    List (List Char) × List (List Char) :=
  match fetch url with
  | none => ([], [])
  | some pg =>
    let e1 := extract_emails_from_text pg.decodedHtml
    let e2 := listUnion e1 (extract_emails_from_text pg.pageText)
    let e3 := pg.hrefs.foldl
      (fun acc href =>
        if containsSub "mailto:".toList (toLowerL href) then
          listUnion acc (extract_emails_from_text (mailtoTarget href))
        else acc) e2
    let e4 := pg.dataEmails.foldl
      (fun acc t => listUnion acc (extract_emails_from_text t)) e3
    let e5 := pg.scriptTexts.foldl
      (fun acc t =>
        if t.contains '@' then
          listUnion acc (extract_emails_from_text
            (replaceSub "\\x40".toList ['@'] (replaceSub "\\u0040".toList ['@'] t)))
        else acc) e4
    let e6 := pg.metaContents.foldl
      (fun acc t =>
        if t.contains '@' then listUnion acc (extract_emails_from_text t) else acc) e5
    let e7 := listUnion e6 (decode_obfuscated pg.decodedHtml)
    (e7, find_all_internal_links url pg.hrefs)

end Scraper

namespace Scraper

/-! ## `EmailScraper.scrape_website_deep` (lines 205-275) -/

/-- The mutable state of the crawl loop: `self.visited_urls`, `to_visit`,
`all_emails`, `pages_scraped` (lines 218-221). -/
structure CrawlState where
  visited : List (List Char)
  toVisit : List (List Char)
  allEmails : List (List Char)
  pages : Nat
deriving DecidableEq

/-- The URL the frontier yields: the head of the prioritized frontier
(line 231). -/
def selectCurrent (st : CrawlState) : List Char :=
  (prioritize_urls st.toVisit).headD []

/-- One iteration of the loop body (lines 229-251), starting after the
guard: pop the prioritized head; if already visited just drop it
(line 234), else mark visited, bump the counter, scrape, merge emails,
enqueue the unseen links.  The boolean reports whether the early-stop
`break` (line 250) fires. -/
def crawlStep (fetch : List Char → Option FetchedPage) (st : CrawlState) :
    CrawlState × Bool :=
  let current := selectCurrent st
  let tv := st.toVisit.erase current
  if current ∈ st.visited then (⟨st.visited, tv, st.allEmails, st.pages⟩, false)
  else
    let visited := st.visited ++ [current]
    let pages := st.pages + 1
    let res := scrape_single_page fetch current
    let newLinks := res.2.filter (fun l => decide (l ∉ visited) && decide (l ∉ tv))
    (⟨visited, tv ++ newLinks, listUnion st.allEmails res.1, pages⟩,
     !res.1.isEmpty && decide (5 ≤ pages))

/-- The crawl loop (lines 228-251): while the frontier is non-empty and
the page budget is not exhausted, run one step; stop early when the step
reports the `break`. -/
def crawlLoop (fetch : List Char → Option FetchedPage) (budget : Nat)
    (st : CrawlState) : CrawlState :=
  if h : st.toVisit ≠ [] ∧ st.pages < budget then
    let s2 := crawlStep fetch st
    if s2.2 then s2.1 else crawlLoop fetch budget s2.1
  else st
termination_by (budget - st.pages, st.toVisit.length)
decreasing_by
  have hmem : ∀ ls : List (List Char), ls ≠ [] → (prioritize_urls ls).headD [] ∈ ls := by
    intro ls hls
    have hperm : ((ls.filter hasPriorityKw) ++
        ls.filter (fun u => !hasPriorityKw u)).Perm ls :=
      List.filter_append_perm hasPriorityKw ls
    cases hp : prioritize_urls ls with
    | nil =>
      exfalso
      have hl := hperm.length_eq
      have hp2 : (ls.filter hasPriorityKw) ++ ls.filter (fun u => !hasPriorityKw u) = [] := hp
      rw [hp2] at hl
      exact hls (List.length_eq_zero.mp hl.symm)
    | cons a as =>
      have ha : a ∈ prioritize_urls ls := by rw [hp]; exact List.mem_cons_self a as
      rw [List.headD_cons]
      exact hperm.mem_iff.mp ha
  have hmeasure : (crawlStep fetch st).1.pages = st.pages + 1 ∨
      ((crawlStep fetch st).1.pages = st.pages ∧
        (crawlStep fetch st).1.toVisit.length < st.toVisit.length) := by
    by_cases hv : selectCurrent st ∈ st.visited
    · right
      have hmem2 : selectCurrent st ∈ st.toVisit := hmem st.toVisit h.1
      refine ⟨by simp [crawlStep, hv], ?_⟩
      simp only [crawlStep, hv, if_pos]
      rw [List.length_erase_of_mem hmem2]
      exact Nat.sub_lt (List.length_pos.mpr h.1) Nat.one_pos
    · left
      simp [crawlStep, hv]
  rcases hmeasure with hp | ⟨hp, hl⟩
  · exact Prod.Lex.left _ _ (by omega)
  · rw [hp]; exact Prod.Lex.right _ hl

/-- Fuel-bounded executable mirror of `crawlLoop`; the flag reports that
the loop genuinely finished (used to evaluate concrete crawls, since the
well-founded `crawlLoop` does not reduce definitionally). -/
def crawlRun (fetch : List Char → Option FetchedPage) (budget : Nat) :
    Nat → CrawlState → CrawlState × Bool
  | 0, st => (st, decide (¬(st.toVisit ≠ [] ∧ st.pages < budget)))
  | n + 1, st =>
    if st.toVisit ≠ [] ∧ st.pages < budget then
      let s2 := crawlStep fetch st
      if s2.2 then (s2.1, true) else crawlRun fetch budget n s2.1
    else (st, true)

/-- Lines 253-263: filter the aggregate for career keywords, fall back to
contact keywords, fall back to everything. -/
def careerKeywords : List (List Char) :=
  ["career".toList, "careers".toList, "job".toList, "jobs".toList,
   "recruit".toList, "hr".toList, "human".toList, "talent".toList,
   "hiring".toList]

/-- Contact-keyword fallback list (line 259). -/
def contactKeywords : List (List Char) :=
  ["contact".toList, "info".toList, "hello".toList, "support".toList,
   "help".toList]

/-- `any(kw in email.lower() for kw in career_keywords)`. -/
def careerMatchB (e : List Char) : Bool :=
  careerKeywords.any (fun kw => containsSub kw (toLowerL e))

/-- `any(kw in email.lower() for kw in contact_keywords)`. -/
def contactMatchB (e : List Char) : Bool :=
  contactKeywords.any (fun kw => containsSub kw (toLowerL e))

/-- The result classifier (lines 253-263): career tier, else contact tier,
else the whole aggregate. -/
def select_final_emails (allEmails : List (List Char)) : List (List Char) :=
  let career := allEmails.filter careerMatchB
  let sel := if career.isEmpty then allEmails.filter contactMatchB else career
  if sel.isEmpty then allEmails else sel

/-- The spec's `ClassificationTier` (§3, §4.6). -/
inductive Tier
  | career
  | contact
  | all
  | none
deriving DecidableEq

/-- Modelled from the spec: the `tierUsed`/`ClassificationTier` of §3 and
§4.6 is not materialized anywhere in the source; it names which branch of
the selection on lines 253-263 produced the final list, derived here from
the aggregated email set. -/
def tierOf (allEmails : List (List Char)) : Tier :=
  if ¬(allEmails.filter careerMatchB).isEmpty then .career
  else if ¬(allEmails.filter contactMatchB).isEmpty then .contact
  else if ¬allEmails.isEmpty then .all
  else .none

/-- The `dict` returned on lines 270-275. -/
structure CrawlResult where
  companyName : List Char
  url : List Char
  emails : List (List Char)
  pagesScraped : Nat
deriving DecidableEq

/-- `EmailScraper.scrape_website_deep`: reset the state, crawl from the
seed, classify the aggregate, build the result. -/
def scrape_website_deep (fetch : List Char → Option FetchedPage)
    (maxPages : Nat) (url : List Char) (companyName : Option (List Char)) :
    CrawlResult :=
  let fin := crawlLoop fetch maxPages ⟨[], [url], [], 0⟩
  ⟨companyName.getD (netloc url), url, select_final_emails fin.allEmails, fin.pages⟩

end Scraper

namespace Scraper

/-- Local part of a candidate address: what precedes the first `@`
(Python `email.split('@', 1)[0]`). -/
def localPartOf (e : List Char) : List Char := e.takeWhile (fun c => c ≠ '@')

/-- Domain part of a candidate address: what follows the first `@`. -/
def domainPartOf (e : List Char) : List Char := e.drop ((localPartOf e).length + 1)


/-- The six validation rules of §4.1, read off a candidate address: length
bounds, local-part bounds, domain label count and last-label length, the
placeholder exclusion list, the no-reply prefixes, and the stricter final
pattern. -/
def SatisfiesSixRules (e : List Char) : Prop :=
  (6 ≤ e.length ∧ e.length ≤ 254) ∧
  (1 ≤ (localPartOf e).length ∧ (localPartOf e).length ≤ 64) ∧
  (2 ≤ (splitOnC '.' (domainPartOf e)).length ∧
    2 ≤ ((splitOnC '.' (domainPartOf e)).getLastD []).length) ∧
  (∀ x ∈ excludeDomains, containsSub x e = false) ∧
  ("noreply".toList.isPrefixOf (localPartOf e) = false ∧
    "no-reply".toList.isPrefixOf (localPartOf e) = false ∧
    "donotreply".toList.isPrefixOf (localPartOf e) = false) ∧
  finalCheckB e = true

/-- The frontier/visited-set invariant of §3 and §4.4, relative to the
seed: the frontier is duplicate-free, frontier and visited URLs stay on
the seed's domain, and no URL is in the frontier and the visited set at
once. -/
def FrontierInv (seed : List Char) (st : CrawlState) : Prop :=
  st.toVisit.Nodup ∧
  (∀ u ∈ st.toVisit, netloc u = netloc seed) ∧
  (∀ u ∈ st.toVisit, u ∉ st.visited) ∧
  (∀ u ∈ st.visited, netloc u = netloc seed)

/-- Serialize a candidate set back to text, joined with one space (the
re-serialization of §8's idempotence property). -/
def joinSpace : List (List Char) → List Char
  | [] => []
  | [e] => e
  | e :: rest => e ++ ' ' :: joinSpace rest

/-! ## Concrete crawl fixtures

Small synthetic sites, used to evaluate the crawl loop on concrete
inputs (`crawlRun` plus `crawlLoop_eq_run` below turn them into facts
about `crawlLoop`). -/

/-- A page with no email-bearing signal, only links. -/
def pageNoEmail (hrefs : List (List Char)) : FetchedPage :=
  ⟨[], [], hrefs, [], [], []⟩

/-- A page whose raw HTML carries one plain address. -/
def pageWithEmail : FetchedPage :=
  ⟨"e@zeta.org".toList, [], [], [], [], []⟩

/-- Six-page site: the seed links to five subpages and only the first
subpage (the second page fetched) carries an email. -/
def fetchC3 : List Char → Option FetchedPage := fun u =>
  if u = "https://a.com/".toList then
    some (pageNoEmail
      ["https://a.com/p1".toList, "https://a.com/p2".toList,
       "https://a.com/p3".toList, "https://a.com/p4".toList,
       "https://a.com/p5".toList])
  else if u = "https://a.com/p1".toList then some pageWithEmail
  else if u = "https://a.com/p2".toList ∨ u = "https://a.com/p3".toList ∨
      u = "https://a.com/p4".toList ∨ u = "https://a.com/p5".toList then
    some (pageNoEmail [])
  else none

/-- Seven-page site: the seed links to six subpages and only the fourth
subpage (the fifth page fetched) carries an email. -/
def fetchBreak5 : List Char → Option FetchedPage := fun u =>
  if u = "https://b.com/".toList then
    some (pageNoEmail
      ["https://b.com/q1".toList, "https://b.com/q2".toList,
       "https://b.com/q3".toList, "https://b.com/q4".toList,
       "https://b.com/q5".toList, "https://b.com/q6".toList])
  else if u = "https://b.com/q4".toList then some pageWithEmail
  else if u = "https://b.com/q1".toList ∨ u = "https://b.com/q2".toList ∨
      u = "https://b.com/q3".toList then
    some (pageNoEmail [])
  else none

/-! ## General helper lemmas -/

/-- The default head of a non-empty list is a member. -/
theorem headD_mem {α : Type} (d : α) : ∀ l : List α, l ≠ [] → l.headD d ∈ l
  | [], h => absurd rfl h
  | x :: xs, _ => List.mem_cons_self x xs

/-- Prioritization permutes the frontier. -/
theorem prioritize_perm (urls : List (List Char)) :
    (prioritize_urls urls).Perm urls :=
  List.filter_append_perm hasPriorityKw urls

/-- The selected URL is an element of the frontier. -/
theorem selectCurrent_mem (st : CrawlState) (h : st.toVisit ≠ []) :
    selectCurrent st ∈ st.toVisit := by
  have hperm := prioritize_perm st.toVisit
  have hne : prioritize_urls st.toVisit ≠ [] := by
    intro he
    have hl := hperm.length_eq
    rw [he] at hl
    exact h (List.length_eq_zero.mp hl.symm)
  exact hperm.mem_iff.mp (headD_mem [] _ hne)

/-- When the frontier is non-empty, one step either bumps the page counter
by one or shrinks the frontier by one (the measure for the loop). -/
theorem crawlStep_measure (fetch : List Char → Option FetchedPage)
    (st : CrawlState) (h : st.toVisit ≠ []) :
    (crawlStep fetch st).1.pages = st.pages + 1 ∨
    ((crawlStep fetch st).1.pages = st.pages ∧
      (crawlStep fetch st).1.toVisit.length < st.toVisit.length) := by
  by_cases hv : selectCurrent st ∈ st.visited
  · right
    refine ⟨by simp [crawlStep, hv], ?_⟩
    simp only [crawlStep, hv, if_pos]
    rw [List.length_erase_of_mem (selectCurrent_mem st h)]
    exact Nat.sub_lt (List.length_pos.mpr h) Nat.one_pos
  · left
    simp [crawlStep, hv]

/-- A finished `crawlRun` computes `crawlLoop`. -/
theorem crawlLoop_eq_run (fetch : List Char → Option FetchedPage) (budget : Nat) :
    ∀ (n : Nat) (st : CrawlState), (crawlRun fetch budget n st).2 = true →
      crawlLoop fetch budget st = (crawlRun fetch budget n st).1 := by
  intro n
  induction n with
  | zero =>
    intro st hdone
    simp only [crawlRun, decide_eq_true_eq] at hdone ⊢
    rw [crawlLoop]
    simp [hdone]
  | succ n ih =>
    intro st hdone
    have hrun : crawlRun fetch budget (n + 1) st =
        if st.toVisit ≠ [] ∧ st.pages < budget then
          (if (crawlStep fetch st).2 then ((crawlStep fetch st).1, true)
           else crawlRun fetch budget n (crawlStep fetch st).1)
        else (st, true) := rfl
    rw [crawlLoop]
    by_cases hg : st.toVisit ≠ [] ∧ st.pages < budget
    · rw [dif_pos hg]
      show (if (crawlStep fetch st).2 then (crawlStep fetch st).1
            else crawlLoop fetch budget (crawlStep fetch st).1) =
          (crawlRun fetch budget (n + 1) st).1
      rw [hrun, if_pos hg]
      by_cases hb : (crawlStep fetch st).2
      · rw [if_pos hb, if_pos hb]
      · rw [if_neg hb, if_neg hb]
        rw [hrun, if_pos hg, if_neg hb] at hdone
        exact ih _ hdone
    · rw [dif_neg hg, hrun, if_neg hg]

/-! ## Set-model lemmas -/

/-- Membership in an insertion. -/
theorem mem_listInsert (x y : List Char) (xs : List (List Char)) :
    x ∈ listInsert xs y ↔ x ∈ xs ∨ x = y := by
  unfold listInsert
  by_cases h : y ∈ xs
  · simp only [h, if_pos]
    constructor
    · exact Or.inl
    · rintro (hx | rfl)
      · exact hx
      · exact h
  · simp [h]

/-- Folding insertions accumulates exactly the members. -/
theorem mem_foldl_listInsert (x : List Char) :
    ∀ (xs acc : List (List Char)),
      x ∈ xs.foldl listInsert acc ↔ x ∈ acc ∨ x ∈ xs := by
  intro xs
  induction xs with
  | nil => simp
  | cons y ys ih =>
    intro acc
    simp only [List.foldl_cons, ih, mem_listInsert, List.mem_cons]
    tauto

/-- Membership in the set model of a list. -/
theorem mem_dedupFirst (x : List Char) (xs : List (List Char)) :
    x ∈ dedupFirst xs ↔ x ∈ xs := by
  unfold dedupFirst
  rw [mem_foldl_listInsert]
  simp

/-- Membership in a union. -/
theorem mem_listUnion (x : List Char) (xs ys : List (List Char)) :
    x ∈ listUnion xs ys ↔ x ∈ xs ∨ x ∈ ys :=
  mem_foldl_listInsert x ys xs

/-- Insertion preserves freedom from duplicates. -/
theorem nodup_listInsert (y : List Char) (xs : List (List Char))
    (h : xs.Nodup) : (listInsert xs y).Nodup := by
  unfold listInsert
  by_cases hm : y ∈ xs
  · simpa [hm]
  · simp only [hm, if_neg, not_false_iff]
    exact List.Nodup.append h (List.nodup_singleton y) (by simpa using hm)

/-- Folded insertions preserve freedom from duplicates. -/
theorem nodup_foldl_listInsert :
    ∀ (xs acc : List (List Char)), acc.Nodup → (xs.foldl listInsert acc).Nodup := by
  intro xs
  induction xs with
  | nil => intro acc h; exact h
  | cons y ys ih =>
    intro acc h
    exact ih _ (nodup_listInsert y acc h)

/-- The set model of a list is duplicate-free. -/
theorem nodup_dedupFirst (xs : List (List Char)) : (dedupFirst xs).Nodup :=
  nodup_foldl_listInsert xs [] List.nodup_nil

/-- Unions of duplicate-free lists are duplicate-free. -/
theorem nodup_listUnion (xs ys : List (List Char)) (h : xs.Nodup) :
    (listUnion xs ys).Nodup :=
  nodup_foldl_listInsert ys xs h

/-! ## Claim C1: every extracted address satisfies the six §4.1 rules -/

/-- Everything the extractor returns passed the whole validation pipeline. -/
theorem mem_extract_clean (text e : List Char)
    (h : e ∈ extract_emails_from_text text) : cleanEmailFilter e = true := by
  unfold extract_emails_from_text at h
  rw [mem_dedupFirst] at h
  exact (List.mem_filter.mp h).2

/-- A prefix of the local part is a prefix of the whole address. -/
theorem prefix_local_prefix_email (p e : List Char)
    (h : p.isPrefixOf (localPartOf e) = true) : p.isPrefixOf e = true := by
  rw [List.isPrefixOf_iff_prefix] at h ⊢
  exact h.trans (List.takeWhile_prefix _)

/-- Contrapositive transport of the no-reply check from the whole address
to its local part. -/
theorem not_prefix_local (p e : List Char) (h : p.isPrefixOf e = false) :
    p.isPrefixOf (localPartOf e) = false := by
  cases hb : p.isPrefixOf (localPartOf e) with
  | false => rfl
  | true => exact absurd (prefix_local_prefix_email p e hb) (by simp [h])

/-- Every address the extractor returns satisfies the six §4.1 rules. -/
theorem extract_satisfies_six (text e : List Char)
    (h : e ∈ extract_emails_from_text text) : SatisfiesSixRules e := by
  unfold SatisfiesSixRules
  have hc := mem_extract_clean text e h
  unfold cleanEmailFilter at hc
  simp only [Bool.and_eq_true, decide_eq_true_eq, Bool.not_eq_true',
    Bool.or_eq_false_iff, List.any_eq_false, Bool.not_eq_true] at hc
  obtain ⟨⟨-, h6, h254⟩, ⟨⟨⟨⟨⟨⟨hl1, hl64⟩, -⟩, hparts⟩, hlast⟩, hexcl⟩,
    ⟨hn1, hn2⟩, hn3⟩, hfin⟩ := hc
  refine ⟨⟨h6, h254⟩, ⟨hl1, hl64⟩, ⟨hparts, hlast⟩, ?_, ?_, hfin⟩
  · intro x hx
    exact hexcl x hx
  · exact ⟨not_prefix_local _ e hn1, not_prefix_local _ e hn2, not_prefix_local _ e hn3⟩

/-- Claim C1: for every input string, every address returned by the email
extractor satisfies all six validation rules of §4.1: total length
between 6 and 254, local part of length 1 to 64, domain with at least two
dot-separated labels whose last label has length at least 2, no entry of
the placeholder-domain exclusion list contained in the address, local
part not starting with `noreply`/`no-reply`/`donotreply`, and a full
match of the stricter alphanumeric-leading final pattern. -/
theorem C1_extract_validation (text e : List Char)
    (h : e ∈ extract_emails_from_text text) :
    (6 ≤ e.length ∧ e.length ≤ 254) ∧
    (1 ≤ (localPartOf e).length ∧ (localPartOf e).length ≤ 64) ∧
    (2 ≤ (splitOnC '.' (domainPartOf e)).length ∧
      2 ≤ ((splitOnC '.' (domainPartOf e)).getLastD []).length) ∧
    (∀ x ∈ excludeDomains, containsSub x e = false) ∧
    ("noreply".toList.isPrefixOf (localPartOf e) = false ∧
      "no-reply".toList.isPrefixOf (localPartOf e) = false ∧
      "donotreply".toList.isPrefixOf (localPartOf e) = false) ∧
    finalCheckB e = true :=
  extract_satisfies_six text e h

/-- Witness for C1 at a concrete input: the extractor accepts
`bob@acme.io` out of a larger text and the theorem applies to it. -/
theorem C1_extract_validation_witness : finalCheckB "bob@acme.io".toList = true :=
  (C1_extract_validation "reach us: Bob@Acme.io".toList "bob@acme.io".toList
    (by decide)).2.2.2.2.2

/-! ## Claim C6: the classifier picks the first non-empty tier -/

/-- A non-empty list is not `isEmpty`. -/
theorem isEmpty_false_of_ne {α : Type} (l : List α) (h : l ≠ []) :
    l.isEmpty = false := by
  cases l with
  | nil => exact absurd rfl h
  | cons a as => rfl

/-- Claim C6: for every aggregated email set the classifier returns the
first non-empty tier in the order career matches, contact matches, full
set, else empty with tier none; and the three concrete scenarios of the
spec hold. -/
theorem C6_classifier_first_nonempty :
    (∀ s : List (List Char),
      (s.filter careerMatchB ≠ [] →
        select_final_emails s = s.filter careerMatchB ∧ tierOf s = Tier.career) ∧
      (s.filter careerMatchB = [] → s.filter contactMatchB ≠ [] →
        select_final_emails s = s.filter contactMatchB ∧ tierOf s = Tier.contact) ∧
      (s.filter careerMatchB = [] → s.filter contactMatchB = [] → s ≠ [] →
        select_final_emails s = s ∧ tierOf s = Tier.all) ∧
      (s = [] → select_final_emails s = [] ∧ tierOf s = Tier.none)) ∧
    select_final_emails ["jobs@acme.com".toList, "info@acme.com".toList] =
      ["jobs@acme.com".toList] ∧
    tierOf ["jobs@acme.com".toList, "info@acme.com".toList] = Tier.career ∧
    tierOf ["info@acme.com".toList] = Tier.contact ∧
    select_final_emails ["info@acme.com".toList] = ["info@acme.com".toList] ∧
    tierOf ([] : List (List Char)) = Tier.none ∧
    select_final_emails ([] : List (List Char)) = [] := by
  refine ⟨?_, by decide, by decide, by decide, by decide, by decide, by decide⟩
  intro s
  refine ⟨?_, ?_, ?_, ?_⟩
  · intro h
    unfold select_final_emails tierOf
    rw [isEmpty_false_of_ne _ h]
    simp [h, isEmpty_false_of_ne]
  · intro h hc
    unfold select_final_emails tierOf
    simp [h, hc, isEmpty_false_of_ne _ hc]
  · intro h hc hs
    unfold select_final_emails tierOf
    simp [h, hc, hs]
  · intro h
    subst h
    exact ⟨rfl, rfl⟩

/-- Witness for the implications of C6 at a concrete input: a lone
`hr@x.io` lands in the career tier. -/
theorem C6_classifier_first_nonempty_witness :
    select_final_emails ["hr@x.io".toList] = (["hr@x.io".toList]).filter careerMatchB ∧
    tierOf ["hr@x.io".toList] = Tier.career :=
  (C6_classifier_first_nonempty.1 ["hr@x.io".toList]).1 (by decide)

/-! ## Claim C8: URL prioritization (corrected)

The source checks each relevance keyword against the whole lowercased
URL string (line 121), not against the path or query only; a URL whose
domain carries a keyword outranks a URL whose path carries one. -/

/-- Counterexample to C8 as stated: in the frontier
`["https://hr-site.com/x", "https://acme.com/contact"]` a URL whose path
contains a keyword is present, yet the selection picks
`https://hr-site.com/x` (keyword `hr` in its domain), whose path and
query contain no keyword. -/
theorem C8_counterexample :
    priorityKeywords.any (fun kw => containsSub kw
      (toLowerL (pathQueryOf ((prioritize_urls
        ["https://hr-site.com/x".toList, "https://acme.com/contact".toList]).headD []))))
      = false ∧
    "https://acme.com/contact".toList ∈
      ["https://hr-site.com/x".toList, "https://acme.com/contact".toList] ∧
    priorityKeywords.any (fun kw => containsSub kw
      (toLowerL (pathQueryOf "https://acme.com/contact".toList))) = true := by
  refine ⟨by decide, by decide, by decide⟩

/-- Claim C8 as amended: whenever some frontier URL contains a relevance
keyword anywhere in its full lowercased URL string, the selected URL is
such a URL (and hence keyword-free URLs are selected only when no
keyword-bearing URL remains). -/
theorem C8_priority_selection (urls : List (List Char))
    (h : ∃ u ∈ urls, hasPriorityKw u = true) :
    hasPriorityKw ((prioritize_urls urls).headD []) = true := by
  obtain ⟨u, hu, hk⟩ := h
  have hA : u ∈ urls.filter hasPriorityKw := List.mem_filter.mpr ⟨hu, hk⟩
  unfold prioritize_urls
  cases hcase : urls.filter hasPriorityKw with
  | nil => rw [hcase] at hA; cases hA
  | cons a as =>
    rw [List.cons_append, List.headD_cons]
    have ha : a ∈ urls.filter hasPriorityKw := by
      rw [hcase]; exact List.mem_cons_self a as
    exact (List.mem_filter.mp ha).2

/-- Witness for C8 as amended at a concrete frontier. -/
theorem C8_priority_selection_witness :
    hasPriorityKw ((prioritize_urls
      ["https://zeta.org/about".toList, "https://zeta.org/p".toList]).headD []) = true :=
  C8_priority_selection _ ⟨"https://zeta.org/about".toList, by decide, by decide⟩

/-! ## Claim C2: unfetchable seed (corrected)

The page counter is incremented before the fetch is attempted
(lines 237-238 precede line 242), so a crawl whose seed fetch fails
still counts one page: the job returns a `CrawlResult` with an empty
final email list and tier none, but `pagesScraped = 1`, not `0`. -/

/-- Counterexample to C2 as stated: with a fetch oracle that fails on
every URL the job returns a result whose `pagesScraped` is 1, not 0. -/
theorem C2_counterexample :
    (scrape_website_deep (fun _ => none) 10 "https://acme.com".toList
      Option.none).pagesScraped = 1 ∧
    (scrape_website_deep (fun _ => none) 10 "https://acme.com".toList
      Option.none).pagesScraped ≠ 0 := by
  have heq := crawlLoop_eq_run (fun _ => none) 10 3
    ⟨[], ["https://acme.com".toList], [], 0⟩ (by decide)
  have hps : (scrape_website_deep (fun _ => none) 10 "https://acme.com".toList
      Option.none).pagesScraped =
      (crawlLoop (fun _ => none) 10 ⟨[], ["https://acme.com".toList], [], 0⟩).pages := rfl
  rw [hps, heq]
  exact ⟨by decide, by decide⟩

/-- Claim C2 as amended: for every fetch oracle that fails on the seed and
every positive budget, the job still returns a `CrawlResult` (the model
is a total function), with `pagesScraped = 1` (the seed is counted before
its fetch fails), an empty final email list, and tier none. -/
theorem C2_seed_failure_result (fetch : List Char → Option FetchedPage)
    (budget : Nat) (url : List Char) (companyName : Option (List Char))
    (hfail : fetch url = none) (hb : 0 < budget) :
    (scrape_website_deep fetch budget url companyName).pagesScraped = 1 ∧
    (scrape_website_deep fetch budget url companyName).emails = [] ∧
    tierOf (crawlLoop fetch budget ⟨[], [url], [], 0⟩).allEmails = Tier.none := by
  have hsp : scrape_single_page fetch url = ([], []) := by
    unfold scrape_single_page
    rw [hfail]
  have hprio : prioritize_urls [url] = [url] := by
    unfold prioritize_urls
    by_cases hk : hasPriorityKw url
    · simp [hk]
    · simp [hk]
  have hstep : crawlStep fetch ⟨[], [url], [], 0⟩ = (⟨[url], [], [], 1⟩, false) := by
    unfold crawlStep selectCurrent
    simp only [hprio, List.headD_cons]
    rw [if_neg (List.not_mem_nil url)]
    simp [hsp, listUnion, List.erase_cons_head]
  have hloop : crawlLoop fetch budget ⟨[], [url], [], 0⟩ = ⟨[url], [], [], 1⟩ := by
    rw [crawlLoop, dif_pos ⟨by simp, hb⟩]
    show (if (crawlStep fetch ⟨[], [url], [], 0⟩).2 then
            (crawlStep fetch ⟨[], [url], [], 0⟩).1
          else crawlLoop fetch budget (crawlStep fetch ⟨[], [url], [], 0⟩).1) =
        (⟨[url], [], [], 1⟩ : CrawlState)
    rw [hstep]
    show crawlLoop fetch budget ⟨[url], [], [], 1⟩ = ⟨[url], [], [], 1⟩
    rw [crawlLoop, dif_neg]
    intro hcon
    exact hcon.1 rfl
  refine ⟨?_, ?_, ?_⟩
  · show (crawlLoop fetch budget ⟨[], [url], [], 0⟩).pages = 1
    rw [hloop]
  · show select_final_emails (crawlLoop fetch budget ⟨[], [url], [], 0⟩).allEmails = []
    rw [hloop]
    rfl
  · rw [hloop]
    rfl

/-- Witness for C2 as amended: the concrete always-failing oracle with the
default budget. -/
theorem C2_seed_failure_result_witness :
    (scrape_website_deep (fun _ => none) 10 "https://zeta.org".toList
      Option.none).pagesScraped = 1 ∧
    (scrape_website_deep (fun _ => none) 10 "https://zeta.org".toList
      Option.none).emails = [] ∧
    tierOf (crawlLoop (fun _ => none) 10
      ⟨[], ["https://zeta.org".toList], [], 0⟩).allEmails = Tier.none :=
  C2_seed_failure_result (fun _ => none) 10 "https://zeta.org".toList
    Option.none rfl (by decide)

/-! ## Claim C3: the early stop (corrected)

Line 250 tests `emails` — the emails found on the page just scraped —
not the aggregate `all_emails`: with a non-empty aggregate from page 2
and empty later pages the loop keeps crawling past page 5.  The
"page 5 carries the first email" scenario of the spec does hold, because
there the current page's emails and the aggregate coincide. -/

/-- Counterexample to C3 as stated, on the six-page site `fetchC3` (email
on page 2 only): after five pages the aggregate is non-empty, the
frontier is non-empty and budget remains, yet the budget-6 crawl reaches
page 6.  The budget-5 run is the budget-6 run frozen after its fifth
page: the two runs take identical iterations until the fifth page is
scraped, exhibiting that intermediate state. -/
theorem C3_counterexample :
    (crawlLoop fetchC3 6 ⟨[], ["https://a.com/".toList], [], 0⟩).pages = 6 ∧
    (crawlLoop fetchC3 5 ⟨[], ["https://a.com/".toList], [], 0⟩).pages = 5 ∧
    (crawlLoop fetchC3 5 ⟨[], ["https://a.com/".toList], [], 0⟩).allEmails ≠ [] ∧
    (crawlLoop fetchC3 5 ⟨[], ["https://a.com/".toList], [], 0⟩).toVisit ≠ [] := by
  have h6 := crawlLoop_eq_run fetchC3 6 10
    ⟨[], ["https://a.com/".toList], [], 0⟩ (by decide)
  have h5 := crawlLoop_eq_run fetchC3 5 10
    ⟨[], ["https://a.com/".toList], [], 0⟩ (by decide)
  rw [h6, h5]
  exact ⟨by decide, by decide, by decide, by decide⟩

/-- Claim C3 as amended: the loop stops right after scraping a page when
that page itself yielded at least one email and at least five pages have
been fetched — regardless of remaining budget and frontier; in
particular, on a site where page 5 and no earlier page carries an email,
the crawl stops at exactly five pages with links still queued. -/
theorem C3_early_stop :
    (∀ (fetch : List Char → Option FetchedPage) (budget : Nat) (st : CrawlState),
      st.toVisit ≠ [] → st.pages < budget →
      selectCurrent st ∉ st.visited →
      (scrape_single_page fetch (selectCurrent st)).1 ≠ [] →
      5 ≤ st.pages + 1 →
      crawlLoop fetch budget st = (crawlStep fetch st).1 ∧
        (crawlStep fetch st).1.pages = st.pages + 1) ∧
    (crawlLoop fetchBreak5 10 ⟨[], ["https://b.com/".toList], [], 0⟩).pages = 5 ∧
    (crawlLoop fetchBreak5 10 ⟨[], ["https://b.com/".toList], [], 0⟩).toVisit ≠ [] ∧
    (crawlLoop fetchBreak5 10 ⟨[], ["https://b.com/".toList], [], 0⟩).allEmails ≠ [] := by
  constructor
  · intro fetch budget st h1 h2 hnew hema h5
    have hpg : (crawlStep fetch st).1.pages = st.pages + 1 := by
      unfold crawlStep
      rw [if_neg hnew]
    have hbrk : (crawlStep fetch st).2 = true := by
      unfold crawlStep
      rw [if_neg hnew]
      show (!(scrape_single_page fetch (selectCurrent st)).1.isEmpty &&
        decide (5 ≤ st.pages + 1)) = true
      rw [isEmpty_false_of_ne _ hema]
      simp [h5]
    refine ⟨?_, hpg⟩
    rw [crawlLoop, dif_pos ⟨h1, h2⟩]
    show (if (crawlStep fetch st).2 then (crawlStep fetch st).1
          else crawlLoop fetch budget (crawlStep fetch st).1) = (crawlStep fetch st).1
    rw [hbrk]
    rfl
  · have hB := crawlLoop_eq_run fetchBreak5 10 8
      ⟨[], ["https://b.com/".toList], [], 0⟩ (by decide)
    rw [hB]
    exact ⟨by decide, by decide, by decide⟩

/-- Witness for the break rule of C3 as amended, at the state of the
`fetchBreak5` site just before its fifth page (the first one carrying an
email) is scraped. -/
theorem C3_early_stop_witness :
    crawlLoop fetchBreak5 10
      ⟨["https://b.com/".toList, "https://b.com/q1".toList,
        "https://b.com/q2".toList, "https://b.com/q3".toList],
       ["https://b.com/q4".toList, "https://b.com/q5".toList,
        "https://b.com/q6".toList], [], 4⟩ =
      (crawlStep fetchBreak5
        ⟨["https://b.com/".toList, "https://b.com/q1".toList,
          "https://b.com/q2".toList, "https://b.com/q3".toList],
         ["https://b.com/q4".toList, "https://b.com/q5".toList,
          "https://b.com/q6".toList], [], 4⟩).1 ∧
    (crawlStep fetchBreak5
      ⟨["https://b.com/".toList, "https://b.com/q1".toList,
        "https://b.com/q2".toList, "https://b.com/q3".toList],
       ["https://b.com/q4".toList, "https://b.com/q5".toList,
        "https://b.com/q6".toList], [], 4⟩).1.pages = 4 + 1 :=
  C3_early_stop.1 fetchBreak5 10 _ (by decide) (by decide) (by decide)
    (by decide) (by decide)

/-! ## Loop invariants: claims C4 and C10 -/

/-- Invariants that hold before the loop and are preserved by every
iteration hold at the end of the crawl. -/
theorem crawlLoop_inv (fetch : List Char → Option FetchedPage) (budget : Nat)
    (P : CrawlState → Prop)
    (hstep : ∀ st, st.toVisit ≠ [] → st.pages < budget → P st →
      P (crawlStep fetch st).1) :
    ∀ st, P st → P (crawlLoop fetch budget st) := by
  intro st
  induction st using crawlLoop.induct fetch budget with
  | case1 st hg s2 hb =>
    intro hP
    rw [crawlLoop, dif_pos hg]
    show P (if (crawlStep fetch st).2 then (crawlStep fetch st).1
            else crawlLoop fetch budget (crawlStep fetch st).1)
    have hb2 : (crawlStep fetch st).2 = true := hb
    rw [if_pos hb2]
    exact hstep st hg.1 hg.2 hP
  | case2 st hg s2 hb ih =>
    intro hP
    rw [crawlLoop, dif_pos hg]
    show P (if (crawlStep fetch st).2 then (crawlStep fetch st).1
            else crawlLoop fetch budget (crawlStep fetch st).1)
    have hb2 : ¬(crawlStep fetch st).2 = true := hb
    rw [if_neg hb2]
    exact ih (hstep st hg.1 hg.2 hP)
  | case3 st hg =>
    intro hP
    rw [crawlLoop, dif_neg hg]
    exact hP

/-- One iteration either leaves the visited set and the counter unchanged
(the already-visited skip of line 234) or appends exactly the selected,
not-yet-visited URL and counts one page. -/
theorem crawlStep_visited (fetch : List Char → Option FetchedPage)
    (st : CrawlState) :
    ((crawlStep fetch st).1.visited = st.visited ∧
      (crawlStep fetch st).1.pages = st.pages) ∨
    (selectCurrent st ∉ st.visited ∧
      (crawlStep fetch st).1.visited = st.visited ++ [selectCurrent st] ∧
      (crawlStep fetch st).1.pages = st.pages + 1) := by
  by_cases hv : selectCurrent st ∈ st.visited
  · left
    constructor <;> simp [crawlStep, hv]
  · right
    refine ⟨hv, ?_, ?_⟩ <;> simp [crawlStep, hv]

/-- Claim C4: a crawl with page budget N fetches at most N distinct URLs —
from the seed state the visited set is duplicate-free with size at most
the budget, and from any state the visited set only grows (the starting
visited list stays a prefix), never shrinks. -/
theorem C4_visited_bounded_monotone :
    (∀ (fetch : List Char → Option FetchedPage) (budget : Nat) (seed : List Char),
      (crawlLoop fetch budget ⟨[], [seed], [], 0⟩).visited.Nodup ∧
      (crawlLoop fetch budget ⟨[], [seed], [], 0⟩).visited.length ≤ budget) ∧
    (∀ (fetch : List Char → Option FetchedPage) (budget : Nat) (st : CrawlState),
      st.visited <+: (crawlLoop fetch budget st).visited) := by
  constructor
  · intro fetch budget seed
    have hinv := crawlLoop_inv fetch budget
      (fun s => s.visited.Nodup ∧ s.pages = s.visited.length ∧ s.pages ≤ budget)
      ?_ ⟨[], [seed], [], 0⟩ ⟨List.nodup_nil, rfl, Nat.zero_le budget⟩
    · obtain ⟨hnd, hpe, hpb⟩ := hinv
      exact ⟨hnd, hpe ▸ hpb⟩
    · intro s hne hlt ⟨hnd, hpe, hpb⟩
      rcases crawlStep_visited fetch s with ⟨hv, hp⟩ | ⟨hnotin, hv, hp⟩
      · rw [hv, hp]
        exact ⟨hnd, hpe, hpb⟩
      · rw [hv, hp]
        refine ⟨?_, ?_, ?_⟩
        · simp [List.nodup_append, hnd, hnotin]
        · simp [hpe]
        · omega
  · intro fetch budget st
    exact crawlLoop_inv fetch budget (fun s => st.visited <+: s.visited)
      (by
        intro s hne hlt hpre
        rcases crawlStep_visited fetch s with ⟨hv, -⟩ | ⟨-, hv, -⟩
        · rw [hv]; exact hpre
        · rw [hv]; exact hpre.trans (List.prefix_append _ _))
      st List.prefix_rfl

/-- Claim C10: from any state where the page counter equals the size of
the (duplicate-free) visited set — in particular the seed state — the
crawl ends with `pages_scraped` equal to the number of distinct URLs in
the visited set, for every fetch oracle, including oracles that fail on
some or all URLs: the counter is incremented before the fetch is
attempted and per-page errors are swallowed, so failed pages count. -/
theorem C10_pages_counts_visited (fetch : List Char → Option FetchedPage)
    (budget : Nat) (st : CrawlState)
    (hnd : st.visited.Nodup) (hpg : st.pages = st.visited.length) :
    (crawlLoop fetch budget st).pages =
      (crawlLoop fetch budget st).visited.length ∧
    (crawlLoop fetch budget st).visited.Nodup := by
  have hinv := crawlLoop_inv fetch budget
    (fun s => s.visited.Nodup ∧ s.pages = s.visited.length)
    ?_ st ⟨hnd, hpg⟩
  · exact ⟨hinv.2, hinv.1⟩
  · intro s hne hlt ⟨h1, h2⟩
    rcases crawlStep_visited fetch s with ⟨hv, hp⟩ | ⟨hnotin, hv, hp⟩
    · rw [hv, hp]
      exact ⟨h1, h2⟩
    · rw [hv, hp]
      refine ⟨?_, ?_⟩
      · simp [List.nodup_append, h1, hnotin]
      · simp [h2]

/-- Witness for C10 from the seed state with an oracle whose every fetch
fails: the failed seed page still counts, and the count equals the size
of the visited set. -/
theorem C10_pages_counts_visited_witness :
    (crawlLoop (fun _ => none) 10
      ⟨[], ["https://zeta.org".toList], [], 0⟩).pages =
      (crawlLoop (fun _ => none) 10
        ⟨[], ["https://zeta.org".toList], [], 0⟩).visited.length ∧
    (crawlLoop (fun _ => none) 10
      ⟨[], ["https://zeta.org".toList], [], 0⟩).visited.Nodup :=
  C10_pages_counts_visited (fun _ => none) 10
    ⟨[], ["https://zeta.org".toList], [], 0⟩ List.nodup_nil rfl

/-! ## Claim C5: frontier invariants

The stripping of fragment and query (line 35) happens after the domain
comparison (line 33), so the invariant needs that stripping a URL at its
first `#` or `?` does not change its `netloc`. -/

/-- Composing two `takeWhile`s conjoins their predicates. -/
theorem takeWhile_takeWhile_and {α : Type} (p q : α → Bool) :
    ∀ l : List α, (l.takeWhile p).takeWhile q = l.takeWhile (fun a => p a && q a) := by
  intro l
  induction l with
  | nil => rfl
  | cons c cs ih =>
    by_cases hp : p c
    · by_cases hq : q c
      · simp [List.takeWhile_cons, hp, hq, ih]
      · simp [List.takeWhile_cons, hp, hq]
    · simp [List.takeWhile_cons, hp]

/-- Members of a `takeWhile` satisfy its predicate. -/
theorem mem_takeWhile_pred {α : Type} (p : α → Bool) :
    ∀ (l : List α) (a : α), a ∈ l.takeWhile p → p a = true := by
  intro l
  induction l with
  | nil => intro a ha; cases ha
  | cons c cs ih =>
    intro a ha
    by_cases hp : p c
    · rw [List.takeWhile_cons, if_pos hp] at ha
      rcases List.mem_cons.mp ha with rfl | ha2
      · exact hp
      · exact ih a ha2
    · rw [List.takeWhile_cons, if_neg hp] at ha
      cases ha

/-- A conjoined `takeWhile` collapses when the extra predicate holds on
everything the base `takeWhile` keeps. -/
theorem takeWhile_and_eq_of_all {α : Type} (p q : α → Bool) :
    ∀ l : List α, (∀ a ∈ l.takeWhile q, p a = true) →
      l.takeWhile (fun a => p a && q a) = l.takeWhile q := by
  intro l
  induction l with
  | nil => intro _; rfl
  | cons c cs ih =>
    intro h
    by_cases hq : q c
    · have hp : p c = true := by
        refine h c ?_
        rw [List.takeWhile_cons, if_pos hq]
        exact List.mem_cons_self c _
      rw [List.takeWhile_cons, List.takeWhile_cons, if_pos hq,
        if_pos (by rw [hp, hq]; rfl)]
      refine congrArg (c :: ·) (ih ?_)
      intro a ha
      refine h a ?_
      rw [List.takeWhile_cons, if_pos hq]
      exact List.mem_cons_of_mem c ha
    · rw [List.takeWhile_cons, List.takeWhile_cons, if_neg hq,
        if_neg (by
          intro hx
          rw [Bool.and_eq_true] at hx
          exact hq hx.2)]

/-- `takeWhile` walks through a block that satisfies the predicate. -/
theorem takeWhile_append_of_all {α : Type} (p : α → Bool) :
    ∀ (xs ys : List α), (∀ a ∈ xs, p a = true) →
      (xs ++ ys).takeWhile p = xs ++ ys.takeWhile p := by
  intro xs
  induction xs with
  | nil => intro ys _; rfl
  | cons c cs ih =>
    intro ys h
    rw [List.cons_append, List.takeWhile_cons,
      if_pos (h c (List.mem_cons_self c _)), List.cons_append,
      ih ys (fun a ha => h a (List.mem_cons_of_mem c ha))]

/-- The head the `dropWhile` stops at fails the predicate. -/
theorem dropWhile_head_false {α : Type} (p : α → Bool) :
    ∀ (l : List α) (c : α) (rest : List α),
      l.dropWhile p = c :: rest → p c = false := by
  intro l
  induction l with
  | nil => intro c rest h; cases h
  | cons a as ih =>
    intro c rest h
    by_cases hp : p a
    · rw [List.dropWhile_cons, if_pos hp] at h
      exact ih c rest h
    · rw [List.dropWhile_cons, if_neg hp] at h
      injection h with h1 _
      rw [← h1]
      exact Bool.eq_false_iff.mpr hp

/-- A list whose `takeWhile` is shorter than itself splits at the first
failing element. -/
theorem takeWhile_split {α : Type} (p : α → Bool) (l : List α)
    (h : (l.takeWhile p).length < l.length) :
    ∃ c rest, p c = false ∧ l = l.takeWhile p ++ c :: rest := by
  cases hd : l.dropWhile p with
  | nil =>
    exfalso
    have hsplit := List.takeWhile_append_dropWhile (p := p) (l := l)
    rw [hd, List.append_nil] at hsplit
    rw [hsplit] at h
    exact Nat.lt_irrefl _ h
  | cons c rest =>
    refine ⟨c, rest, dropWhile_head_false p l c rest hd, ?_⟩
    conv_lhs => rw [← List.takeWhile_append_dropWhile (p := p) (l := l)]
    rw [hd]

/-- Dropping past an appended block and one more element. -/
theorem drop_append_cons {α : Type} (xs : List α) (c : α) (rest : List α) :
    (xs ++ c :: rest).drop (xs.length + 1) = rest := by
  rw [show xs ++ c :: rest = (xs ++ [c]) ++ rest by simp,
    show xs.length + 1 = (xs ++ [c]).length by simp]
  exact List.drop_left _ _

/-- `netlocBody` is empty unless the string starts with two slashes. -/
theorem netlocBody_not_slashes (a b : Char) (t : List Char)
    (hab : ¬(a = '/' ∧ b = '/')) : netlocBody (a :: b :: t) = [] := by
  unfold netlocBody
  split
  · next rest heq =>
    injection heq with h1 h2
    injection h2 with h2 h3
    exact absurd ⟨h1, h2⟩ hab
  · rfl

/-- A character the netloc scan keeps is neither `#` nor `?`. -/
theorem notDelim_imp_pQF (c : Char)
    (h : (!(c = '/' || c = '?' || c = '#')) = true) :
    (decide (c ≠ '#') && decide (c ≠ '?')) = true := by
  simp only [Bool.and_eq_true, decide_eq_true_eq]
  constructor <;> rintro rfl <;> exact absurd h (by decide)

/-- A one-character string has no network location. -/
theorem netlocBody_single (c : Char) : netlocBody [c] = [] := by
  unfold netlocBody
  split
  · next rest heq =>
    injection heq with h1 h2
    cases h2
  · rfl

/-- Truncating at the first `#` or `?` does not change `netlocBody`. -/
theorem netlocBody_takeWhile (w : List Char) :
    netlocBody (w.takeWhile (fun c => decide (c ≠ '#') && decide (c ≠ '?'))) =
      netlocBody w := by
  rcases w with _ | ⟨c1, w1⟩
  · rfl
  rcases w1 with _ | ⟨c2, w2⟩
  · by_cases h1 : (decide (c1 ≠ '#') && decide (c1 ≠ '?')) = true
    · rw [List.takeWhile_cons, if_pos h1]
      show netlocBody [c1] = netlocBody [c1]
      rfl
    · rw [List.takeWhile_cons, if_neg h1]
      rw [netlocBody_single c1]
      rfl
  · by_cases h1 : (decide (c1 ≠ '#') && decide (c1 ≠ '?')) = true
    · by_cases h2 : (decide (c2 ≠ '#') && decide (c2 ≠ '?')) = true
      · rw [List.takeWhile_cons, if_pos h1, List.takeWhile_cons, if_pos h2]
        by_cases hs : c1 = '/' ∧ c2 = '/'
        · obtain ⟨rfl, rfl⟩ := hs
          show (w2.takeWhile _).takeWhile _ = w2.takeWhile _
          rw [takeWhile_takeWhile_and]
          exact takeWhile_and_eq_of_all _ _ w2
            (fun a ha => notDelim_imp_pQF a (mem_takeWhile_pred _ w2 a ha))
        · rw [netlocBody_not_slashes c1 c2 _ hs, netlocBody_not_slashes c1 c2 _ hs]
      · rw [List.takeWhile_cons, if_pos h1, List.takeWhile_cons, if_neg h2]
        have hc2 : ¬(c1 = '/' ∧ c2 = '/') := by
          rintro ⟨-, rfl⟩
          exact h2 (by decide)
        rw [netlocBody_not_slashes c1 c2 _ hc2, netlocBody_single c1]
    · rw [List.takeWhile_cons, if_neg h1]
      have hc1 : ¬(c1 = '/' ∧ c2 = '/') := by
        rintro ⟨rfl, -⟩
        exact h1 (by decide)
      rw [netlocBody_not_slashes c1 c2 _ hc1]
      rfl

/-- A scheme character is neither `#` nor `?`. -/
theorem schemeChar_pQF (c : Char) (h : isSchemeChar c = true) :
    (decide (c ≠ '#') && decide (c ≠ '?')) = true := by
  simp only [Bool.and_eq_true, decide_eq_true_eq]
  constructor <;> rintro rfl <;> exact absurd h (by decide)

/-- Unfolding `stripScheme` when the scheme test passes. -/
theorem stripScheme_pos (u : List Char)
    (h : ((u.takeWhile (fun c => c ≠ ':')).length < u.length &&
      !(u.takeWhile (fun c => c ≠ ':')).isEmpty &&
      isAlphaC ((u.takeWhile (fun c => c ≠ ':')).headD ' ') &&
      (u.takeWhile (fun c => c ≠ ':')).all isSchemeChar) = true) :
    stripScheme u = u.drop ((u.takeWhile (fun c => c ≠ ':')).length + 1) := by
  simp only [stripScheme]
  rw [if_pos h]

/-- Unfolding `stripScheme` when the scheme test fails. -/
theorem stripScheme_neg (u : List Char)
    (h : ¬((u.takeWhile (fun c => c ≠ ':')).length < u.length &&
      !(u.takeWhile (fun c => c ≠ ':')).isEmpty &&
      isAlphaC ((u.takeWhile (fun c => c ≠ ':')).headD ' ') &&
      (u.takeWhile (fun c => c ≠ ':')).all isSchemeChar) = true) :
    stripScheme u = u := by
  simp only [stripScheme]
  rw [if_neg h]

/-- Stripping a URL at its first `#` or `?` (line 35) does not change its
network location. -/
theorem netloc_stripQF (u : List Char) : netloc (stripQF u) = netloc u := by
  have hqf : stripQF u =
      u.takeWhile (fun c => decide (c ≠ '#') && decide (c ≠ '?')) := by
    unfold stripQF
    exact takeWhile_takeWhile_and _ _ u
  rw [hqf]
  show netlocBody (stripScheme
      (u.takeWhile (fun c => decide (c ≠ '#') && decide (c ≠ '?')))) =
    netlocBody (stripScheme u)
  by_cases hfire : ((u.takeWhile (fun c => c ≠ ':')).length < u.length &&
      !(u.takeWhile (fun c => c ≠ ':')).isEmpty &&
      isAlphaC ((u.takeWhile (fun c => c ≠ ':')).headD ' ') &&
      (u.takeWhile (fun c => c ≠ ':')).all isSchemeChar) = true
  · -- the scheme test passes for u
    have hparts := hfire
    simp only [Bool.and_eq_true, decide_eq_true_eq, Bool.not_eq_true'] at hparts
    obtain ⟨⟨⟨hlen, hne⟩, halpha⟩, hall⟩ := hparts
    obtain ⟨c, rest, hcfalse, hdecomp⟩ := takeWhile_split _ u hlen
    have hceq : c = ':' := not_not.mp (of_decide_eq_false hcfalse)
    subst hceq
    have hallp : ∀ a ∈ u.takeWhile (fun c => c ≠ ':'),
        (decide (a ≠ '#') && decide (a ≠ '?')) = true :=
      fun a ha => schemeChar_pQF a ((List.all_eq_true.mp hall) a ha)
    have hv : u.takeWhile (fun c => decide (c ≠ '#') && decide (c ≠ '?')) =
        (u.takeWhile (fun c => c ≠ ':')) ++
          ':' :: rest.takeWhile (fun c => decide (c ≠ '#') && decide (c ≠ '?')) := by
      conv_lhs => rw [hdecomp]
      rw [takeWhile_append_of_all _ _ _ hallp, List.takeWhile_cons,
        if_pos (by decide)]
    have hprev : (u.takeWhile (fun c => decide (c ≠ '#') &&
        decide (c ≠ '?'))).takeWhile (fun c => c ≠ ':') =
        u.takeWhile (fun c => c ≠ ':') := by
      rw [hv, takeWhile_append_of_all _ _ _
        (fun a ha => mem_takeWhile_pred _ u a ha), List.takeWhile_cons,
        if_neg (by decide)]
      simp
    have hfirev : (((u.takeWhile (fun c => decide (c ≠ '#') &&
        decide (c ≠ '?'))).takeWhile (fun c => c ≠ ':')).length <
          (u.takeWhile (fun c => decide (c ≠ '#') && decide (c ≠ '?'))).length &&
        !((u.takeWhile (fun c => decide (c ≠ '#') &&
          decide (c ≠ '?'))).takeWhile (fun c => c ≠ ':')).isEmpty &&
        isAlphaC (((u.takeWhile (fun c => decide (c ≠ '#') &&
          decide (c ≠ '?'))).takeWhile (fun c => c ≠ ':')).headD ' ') &&
        ((u.takeWhile (fun c => decide (c ≠ '#') &&
          decide (c ≠ '?'))).takeWhile (fun c => c ≠ ':')).all isSchemeChar) = true := by
      simp only [Bool.and_eq_true, decide_eq_true_eq, Bool.not_eq_true']
      rw [hprev]
      refine ⟨⟨⟨?_, hne⟩, halpha⟩, hall⟩
      rw [hv]
      simp [List.length_append]
    have hstripv : stripScheme (u.takeWhile (fun c => decide (c ≠ '#') &&
        decide (c ≠ '?'))) =
        rest.takeWhile (fun c => decide (c ≠ '#') && decide (c ≠ '?')) := by
      rw [stripScheme_pos _ hfirev, hprev, hv, drop_append_cons]
    have hstripu : stripScheme u = rest := by
      rw [stripScheme_pos _ hfire]
      nth_rewrite 2 [hdecomp]
      exact drop_append_cons _ _ _
    rw [hstripv, hstripu]
    exact netlocBody_takeWhile rest
  · -- the scheme test fails for u, hence also for the stripped URL
    have hfirev : ¬(((u.takeWhile (fun c => decide (c ≠ '#') &&
        decide (c ≠ '?'))).takeWhile (fun c => c ≠ ':')).length <
          (u.takeWhile (fun c => decide (c ≠ '#') && decide (c ≠ '?'))).length &&
        !((u.takeWhile (fun c => decide (c ≠ '#') &&
          decide (c ≠ '?'))).takeWhile (fun c => c ≠ ':')).isEmpty &&
        isAlphaC (((u.takeWhile (fun c => decide (c ≠ '#') &&
          decide (c ≠ '?'))).takeWhile (fun c => c ≠ ':')).headD ' ') &&
        ((u.takeWhile (fun c => decide (c ≠ '#') &&
          decide (c ≠ '?'))).takeWhile (fun c => c ≠ ':')).all isSchemeChar) = true := by
      intro hfv
      simp only [Bool.and_eq_true, decide_eq_true_eq, Bool.not_eq_true'] at hfv
      obtain ⟨⟨⟨hlenv, hnev⟩, halphav⟩, hallv⟩ := hfv
      obtain ⟨c, w, hcf, hdv⟩ := takeWhile_split _
        (u.takeWhile (fun c => decide (c ≠ '#') && decide (c ≠ '?'))) hlenv
      have hceq : c = ':' := not_not.mp (of_decide_eq_false hcf)
      subst hceq
      obtain ⟨t, ht⟩ := List.takeWhile_prefix
        (l := u) (p := fun c => decide (c ≠ '#') && decide (c ≠ '?'))
      have hpvmem : ∀ a ∈ (u.takeWhile (fun c => decide (c ≠ '#') &&
          decide (c ≠ '?'))).takeWhile (fun c => c ≠ ':'),
          decide (a ≠ ':') = true :=
        fun a ha => mem_takeWhile_pred _ _ a ha
      generalize hgenp : (u.takeWhile (fun c => decide (c ≠ '#') &&
        decide (c ≠ '?'))).takeWhile (fun c => c ≠ ':') = pv at hdv hnev halphav hallv hpvmem
      generalize hgenv : u.takeWhile (fun c => decide (c ≠ '#') &&
        decide (c ≠ '?')) = v at hdv ht
      have hu2 : u = pv ++ ':' :: (w ++ t) := by
        rw [← ht, hdv]
        simp
      have hpreu : u.takeWhile (fun c => c ≠ ':') = pv := by
        rw [hu2, takeWhile_append_of_all _ _ _ hpvmem, List.takeWhile_cons,
          if_neg (by decide)]
        simp
      refine hfire ?_
      simp only [Bool.and_eq_true, decide_eq_true_eq, Bool.not_eq_true']
      rw [hpreu]
      refine ⟨⟨⟨?_, hnev⟩, halphav⟩, hallv⟩
      have hul : u.length = pv.length + 1 + (w ++ t).length := by
        rw [hu2]
        simp [List.length_append]
        omega
      omega
    rw [stripScheme_neg _ hfirev, stripScheme_neg _ hfire]
    exact netlocBody_takeWhile u

/-- Every discovered internal link is on the page's own domain
(lines 28-36: the domain filter runs before the stripping, and stripping
preserves the domain). -/
theorem links_netloc (url : List Char) :
    ∀ (hrefs acc : List (List Char)),
      (∀ l ∈ acc, netloc l = netloc url) →
      ∀ l ∈ hrefs.foldl
        (fun acc href => if netloc href = netloc url then
          listInsert acc (stripQF href) else acc) acc,
        netloc l = netloc url := by
  intro hrefs
  induction hrefs with
  | nil => intro acc hacc l hl; exact hacc l hl
  | cons h hs ih =>
    intro acc hacc l hl
    rw [List.foldl_cons] at hl
    refine ih _ ?_ l hl
    intro x hx
    by_cases hd : netloc h = netloc url
    · rw [if_pos hd] at hx
      rcases (mem_listInsert x _ acc).mp hx with hx2 | rfl
      · exact hacc x hx2
      · rw [netloc_stripQF h]
        exact hd
    · rw [if_neg hd] at hx
      exact hacc x hx

/-- The discovered-link set is duplicate-free. -/
theorem links_nodup (url : List Char) :
    ∀ (hrefs acc : List (List Char)), acc.Nodup →
      (hrefs.foldl
        (fun acc href => if netloc href = netloc url then
          listInsert acc (stripQF href) else acc) acc).Nodup := by
  intro hrefs
  induction hrefs with
  | nil => intro acc hacc; exact hacc
  | cons h hs ih =>
    intro acc hacc
    rw [List.foldl_cons]
    refine ih _ ?_
    by_cases hd : netloc h = netloc url
    · rw [if_pos hd]
      exact nodup_listInsert _ acc hacc
    · rw [if_neg hd]
      exact hacc

/-- The links one page contributes are on that page's domain, whether or
not its fetch succeeded. -/
theorem scrape_links_netloc (fetch : List Char → Option FetchedPage)
    (u l : List Char) (h : l ∈ (scrape_single_page fetch u).2) :
    netloc l = netloc u := by
  unfold scrape_single_page at h
  cases hf : fetch u with
  | none => rw [hf] at h; cases h
  | some pg =>
    rw [hf] at h
    have h2 : l ∈ find_all_internal_links u pg.hrefs := h
    exact links_netloc u pg.hrefs [] (fun x hx => absurd hx (List.not_mem_nil x)) l h2

/-- The links one page contributes are duplicate-free. -/
theorem scrape_links_nodup (fetch : List Char → Option FetchedPage)
    (u : List Char) : (scrape_single_page fetch u).2.Nodup := by
  unfold scrape_single_page
  cases hf : fetch u with
  | none => exact List.nodup_nil
  | some pg =>
    show (find_all_internal_links u pg.hrefs).Nodup
    exact links_nodup u pg.hrefs [] List.nodup_nil

/-- The state change of a skipped (already-visited) selection. -/
theorem crawlStep_skip (fetch : List Char → Option FetchedPage)
    (st : CrawlState) (hv : selectCurrent st ∈ st.visited) :
    (crawlStep fetch st).1 =
      ⟨st.visited, st.toVisit.erase (selectCurrent st), st.allEmails, st.pages⟩ := by
  simp [crawlStep, hv]

/-- The state change of a productive iteration. -/
theorem crawlStep_expand (fetch : List Char → Option FetchedPage)
    (st : CrawlState) (hv : selectCurrent st ∉ st.visited) :
    (crawlStep fetch st).1 =
      ⟨st.visited ++ [selectCurrent st],
       st.toVisit.erase (selectCurrent st) ++
         (scrape_single_page fetch (selectCurrent st)).2.filter
           (fun l => decide (l ∉ st.visited ++ [selectCurrent st]) &&
             decide (l ∉ st.toVisit.erase (selectCurrent st))),
       listUnion st.allEmails (scrape_single_page fetch (selectCurrent st)).1,
       st.pages + 1⟩ := by
  simp [crawlStep, hv]

/-- One iteration from a non-empty frontier preserves the frontier
invariant: the already-visited skip only shrinks the frontier, and a
productive iteration enqueues only same-domain links that are in neither
the new visited set nor the remaining frontier. -/
theorem crawlStep_preserves_frontierInv (fetch : List Char → Option FetchedPage)
    (seed : List Char) (st : CrawlState)
    (hne : st.toVisit ≠ []) (hInv : FrontierInv seed st) :
    FrontierInv seed (crawlStep fetch st).1 := by
  obtain ⟨hnd, hdom, hdisj, hvdom⟩ := hInv
  have hcur : selectCurrent st ∈ st.toVisit := selectCurrent_mem st hne
  by_cases hv : selectCurrent st ∈ st.visited
  · rw [crawlStep_skip fetch st hv]
    refine ⟨hnd.erase _, ?_, ?_, hvdom⟩
    · intro u hu
      exact hdom u (List.mem_of_mem_erase hu)
    · intro u hu
      exact hdisj u (List.mem_of_mem_erase hu)
  · rw [crawlStep_expand fetch st hv]
    refine ⟨?_, ?_, ?_, ?_⟩
    · rw [List.nodup_append]
      refine ⟨hnd.erase _, (scrape_links_nodup fetch _).filter _, ?_⟩
      intro a ha hb
      have hc := (List.mem_filter.mp hb).2
      simp only [Bool.and_eq_true, decide_eq_true_eq] at hc
      exact hc.2 ha
    · intro u hu
      rcases List.mem_append.mp hu with h1 | h2
      · exact hdom u (List.mem_of_mem_erase h1)
      · have hl := (List.mem_filter.mp h2).1
        rw [scrape_links_netloc fetch _ u hl]
        exact hdom _ hcur
    · intro u hu
      rcases List.mem_append.mp hu with h1 | h2
      · have h3 := (List.Nodup.mem_erase_iff hnd).mp h1
        intro hmem
        rcases List.mem_append.mp hmem with hm1 | hm2
        · exact hdisj u h3.2 hm1
        · exact h3.1 (List.mem_singleton.mp hm2)
      · have hc := (List.mem_filter.mp h2).2
        simp only [Bool.and_eq_true, decide_eq_true_eq] at hc
        exact hc.1
    · intro u hu
      rcases List.mem_append.mp hu with h1 | h2
      · exact hvdom u h1
      · rw [List.mem_singleton.mp h2]
        exact hdom _ hcur

/-- Claim C5: the frontier invariant holds at the seed state, is preserved
by every iteration and by the whole loop, and under it the frontier never
yields a URL off the seed's domain nor one already visited. -/
theorem C5_frontier_domain_visited (seed : List Char) :
    FrontierInv seed ⟨[], [seed], [], 0⟩ ∧
    (∀ st : CrawlState, FrontierInv seed st → st.toVisit ≠ [] →
      netloc (selectCurrent st) = netloc seed ∧
      selectCurrent st ∉ st.visited) ∧
    (∀ (fetch : List Char → Option FetchedPage) (st : CrawlState),
      FrontierInv seed st → st.toVisit ≠ [] →
      FrontierInv seed (crawlStep fetch st).1) ∧
    (∀ (fetch : List Char → Option FetchedPage) (budget : Nat) (st : CrawlState),
      FrontierInv seed st → FrontierInv seed (crawlLoop fetch budget st)) := by
  refine ⟨?_, ?_, ?_, ?_⟩
  · refine ⟨List.nodup_singleton seed, ?_, ?_, ?_⟩
    · intro u hu
      rw [List.mem_singleton.mp hu]
    · intro u _
      exact List.not_mem_nil u
    · intro u hu
      cases hu
  · intro st hInv hne
    have hcur := selectCurrent_mem st hne
    exact ⟨hInv.2.1 _ hcur, hInv.2.2.1 _ hcur⟩
  · intro fetch st hInv hne
    exact crawlStep_preserves_frontierInv fetch seed st hne hInv
  · intro fetch budget st hInv
    exact crawlLoop_inv fetch budget (FrontierInv seed)
      (fun s hne _ hI => crawlStep_preserves_frontierInv fetch seed s hne hI)
      st hInv

/-- Witness for C5 at a concrete seed state: the selection is on-domain
and unvisited. -/
theorem C5_frontier_domain_visited_witness :
    netloc (selectCurrent ⟨["https://b.com/".toList],
      ["https://b.com/q1".toList], [], 1⟩) = netloc "https://b.com/".toList ∧
    selectCurrent ⟨["https://b.com/".toList],
      ["https://b.com/q1".toList], [], 1⟩ ∉ ["https://b.com/".toList] :=
  (C5_frontier_domain_visited "https://b.com/".toList).2.1
    ⟨["https://b.com/".toList], ["https://b.com/q1".toList], [], 1⟩
    ⟨by decide, by decide, by decide, by decide⟩ (by decide)

/-! ## Claim C7: the obfuscation decoder -/

/-- Membership in a fold of unions comes from the accumulator or from one
of the united sets. -/
theorem mem_foldl_listUnion {β : Type} (f : β → List (List Char)) (e : List Char) :
    ∀ (ms : List β) (acc : List (List Char)),
      e ∈ ms.foldl (fun acc m => listUnion acc (f m)) acc →
      e ∈ acc ∨ ∃ m ∈ ms, e ∈ f m := by
  intro ms
  induction ms with
  | nil =>
    intro acc h
    exact Or.inl h
  | cons m ms ih =>
    intro acc h
    rw [List.foldl_cons] at h
    rcases ih _ h with h2 | ⟨m2, hm2, he⟩
    · rcases (mem_listUnion e acc (f m)).mp h2 with ha | hf
      · exact Or.inl ha
      · exact Or.inr ⟨m, List.mem_cons_self m ms, hf⟩
    · exact Or.inr ⟨m2, List.mem_cons_of_mem m hm2, he⟩

/-- Claim C7: decoding `"jane [at] acme [dot] com"` yields exactly
`{"jane@acme.com"}`, and every address the obfuscation decoder produces
went through the §4.1 extractor, so it satisfies all six validation
rules. -/
theorem C7_obfuscation_decode :
    decode_obfuscated "jane [at] acme [dot] com".toList =
      ["jane@acme.com".toList] ∧
    (∀ text e, e ∈ decode_obfuscated text → SatisfiesSixRules e) := by
  refine ⟨by decide, ?_⟩
  intro text e h
  unfold decode_obfuscated at h
  have h2 := mem_foldl_listUnion
    (fun m : List Char × List Char × List Char =>
      extract_emails_from_text
        (stripWs m.1 ++ '@' :: (stripWs m.2.1 ++ '.' :: stripWs m.2.2)))
    e (obfFindall obfPattern1 0 4 8 text ++ obfFindall obfPattern2 0 8 16 text)
    [] h
  rcases h2 with h0 | ⟨m, -, he⟩
  · cases h0
  · exact extract_satisfies_six _ e he

/-- Witness for C7's universal part at the concrete obfuscated text. -/
theorem C7_obfuscation_decode_witness :
    SatisfiesSixRules "jane@acme.com".toList :=
  C7_obfuscation_decode.2 "jane [at] acme [dot] com".toList
    "jane@acme.com".toList (by decide)

/-! ## Claim C9: idempotence of the extractor

Plan: every address the extractor emits is a full match of the primary
pattern (after stripping and lowering) and passes the validation
pipeline; the serialized text is those addresses joined by spaces; the
maximal-munch scan over that text recovers exactly the addresses again
(a space can occur inside a pattern match only behind a backslash
escape, and the surviving addresses contain neither), and the pipeline
then reproduces the set unchanged. -/

/-- A found length is a full match within the bound. -/
theorem findEmailLen_sound (s : List Char) :
    ∀ (k n : Nat), findEmailLen s k = some n →
      emailFullMatch (s.take n) = true ∧ 1 ≤ n ∧ n ≤ k := by
  intro k
  induction k with
  | zero => intro n h; cases h
  | succ k ih =>
    intro n h
    unfold findEmailLen at h
    by_cases hm : emailFullMatch (s.take (k + 1)) = true
    · rw [if_pos hm] at h
      injection h with h2
      subst h2
      exact ⟨hm, Nat.succ_le_succ (Nat.zero_le k), Nat.le_refl _⟩
    · rw [if_neg hm] at h
      obtain ⟨h1, h2, h3⟩ := ih n h
      exact ⟨h1, h2, Nat.le_succ_of_le h3⟩

/-- The found length is maximal within the bound. -/
theorem findEmailLen_max (s : List Char) :
    ∀ (k n : Nat), findEmailLen s k = some n →
      ∀ j, n < j → j ≤ k → emailFullMatch (s.take j) = false := by
  intro k
  induction k with
  | zero => intro n h; cases h
  | succ k ih =>
    intro n h j hnj hjk
    unfold findEmailLen at h
    by_cases hm : emailFullMatch (s.take (k + 1)) = true
    · rw [if_pos hm] at h
      injection h with h2
      subst h2
      omega
    · rw [if_neg hm] at h
      rcases Nat.lt_or_ge j (k + 1) with hj | hj
      · exact ih n h j hnj (Nat.lt_succ_iff.mp hj)
      · have : j = k + 1 := Nat.le_antisymm hjk hj
        subst this
        exact Bool.eq_false_iff.mpr hm

/-- The search is complete: a full-match prefix within the bound is found. -/
theorem findEmailLen_isSome (s : List Char) :
    ∀ (k j : Nat), j ≤ k → emailFullMatch (s.take j) = true →
      findEmailLen s k ≠ none := by
  intro k
  induction k with
  | zero =>
    intro j hj hm
    interval_cases j
    intro _
    rw [show s.take 0 = [] from rfl] at hm
    cases hm
  | succ k ih =>
    intro j hj hm hnone
    unfold findEmailLen at hnone
    by_cases hk : emailFullMatch (s.take (k + 1)) = true
    · rw [if_pos hk] at hnone
      cases hnone
    · rw [if_neg hk] at hnone
      rcases Nat.lt_or_ge j (k + 1) with hj2 | hj2
      · exact ih j (Nat.lt_succ_iff.mp hj2) hm hnone
      · have : j = k + 1 := Nat.le_antisymm hj hj2
        subst this
        exact hk hm

/-- Exact determination: when `j` full-matches and everything longer (up
to the bound) fails, the search returns `j`. -/
theorem findEmailLen_eq (s : List Char) (k j : Nat) (hj : j ≤ k)
    (hm : emailFullMatch (s.take j) = true)
    (hmax : ∀ i, j < i → i ≤ k → emailFullMatch (s.take i) = false) :
    findEmailLen s k = some j := by
  cases hfind : findEmailLen s k with
  | none => exact absurd hfind (findEmailLen_isSome s k j hj hm)
  | some n =>
    obtain ⟨hn1, -, hn3⟩ := findEmailLen_sound s k n hfind
    rcases Nat.lt_trichotomy n j with h | h | h
    · exact absurd hm (by
        rw [findEmailLen_max s k n hfind j h hj]
        simp)
    · rw [h]
    · rw [hmax n h hn3] at hn1
      cases hn1

/-- When every non-empty prefix within the bound fails, the search fails. -/
theorem findEmailLen_eq_none (s : List Char) :
    ∀ k : Nat, (∀ j, 1 ≤ j → j ≤ k → emailFullMatch (s.take j) = false) →
      findEmailLen s k = none := by
  intro k
  induction k with
  | zero => intro _; rfl
  | succ k ih =>
    intro h
    unfold findEmailLen
    rw [if_neg (by
      rw [h (k + 1) (Nat.succ_le_succ (Nat.zero_le k)) (Nat.le_refl _)]
      simp)]
    exact ih (fun j h1 h2 => h j h1 (Nat.le_succ_of_le h2))

/-- Every string the scan emits is a full match of the primary pattern. -/
theorem emailFindallAux_sound :
    ∀ (fuel : Nat) (s m : List Char), m ∈ emailFindallAux fuel s →
      emailFullMatch m = true := by
  intro fuel
  induction fuel with
  | zero =>
    intro s m h
    rw [show emailFindallAux 0 s = [] by cases s <;> rfl] at h
    cases h
  | succ fuel ih =>
    intro s m h
    match s with
    | [] => cases h
    | c :: cs =>
      unfold emailFindallAux at h
      cases hf : findEmailLen (c :: cs) (cs.length + 1) with
      | none =>
        rw [hf] at h
        exact ih cs m h
      | some n =>
        rw [hf] at h
        rcases List.mem_cons.mp h with rfl | h2
        · exact (findEmailLen_sound (c :: cs) (cs.length + 1) n hf).1
        · exact ih _ m h2

/-- Every string the findall emits is a full match. -/
theorem emailFindall_sound (s m : List Char) (h : m ∈ emailFindall s) :
    emailFullMatch m = true :=
  emailFindallAux_sound s.length s m h

/-- Every character of a split string is the separator or sits in one of
the parts. -/
theorem mem_splitOnC (sep : Char) :
    ∀ (l : List Char) (c : Char), c ∈ l →
      c = sep ∨ ∃ p ∈ splitOnC sep l, c ∈ p := by
  intro l
  induction l with
  | nil => intro c hc; cases hc
  | cons a as ih =>
    intro c hc
    by_cases ha : a = sep
    · rcases List.mem_cons.mp hc with rfl | hc2
      · exact Or.inl ha
      · rcases ih c hc2 with h | ⟨p, hp, hcp⟩
        · exact Or.inl h
        · refine Or.inr ⟨p, ?_, hcp⟩
          unfold splitOnC
          rw [if_pos ha]
          exact List.mem_cons_of_mem _ hp
    · cases hrest : splitOnC sep as with
      | nil =>
        rcases List.mem_cons.mp hc with rfl | hc2
        · refine Or.inr ⟨[c], ?_, List.mem_singleton_self c⟩
          unfold splitOnC
          rw [if_neg ha, hrest]
          exact List.mem_singleton_self [c]
        · rcases ih c hc2 with h | ⟨p, hp, hcp⟩
          · exact Or.inl h
          · rw [hrest] at hp
            cases hp
      | cons r rs =>
        rcases List.mem_cons.mp hc with rfl | hc2
        · refine Or.inr ⟨c :: r, ?_, List.mem_cons_self c r⟩
          unfold splitOnC
          rw [if_neg ha, hrest]
          exact List.mem_cons_self _ rs
        · rcases ih c hc2 with h | ⟨p, hp, hcp⟩
          · exact Or.inl h
          · rw [hrest] at hp
            rcases List.mem_cons.mp hp with rfl | hp2
            · refine Or.inr ⟨a :: p, ?_, List.mem_cons_of_mem a hcp⟩
              unfold splitOnC
              rw [if_neg ha, hrest]
              exact List.mem_cons_self _ rs
            · refine Or.inr ⟨p, ?_, hcp⟩
              unfold splitOnC
              rw [if_neg ha, hrest]
              exact List.mem_cons_of_mem _ hp2

/-- Every element is in the `dropLast` or equals the `getLastD`. -/
theorem mem_dropLast_or_getLastD (d : Char) :
    ∀ (l : List Char) (c : Char), c ∈ l →
      c ∈ l.dropLast ∨ c = l.getLastD d := by
  intro l
  induction l with
  | nil => intro c hc; cases hc
  | cons a as ih =>
    intro c hc
    cases as with
    | nil =>
      rcases List.mem_cons.mp hc with rfl | hc2
      · exact Or.inr rfl
      · cases hc2
    | cons b bs =>
      rcases List.mem_cons.mp hc with rfl | hc2
      · exact Or.inl (List.mem_cons_self c _)
      · rcases ih c hc2 with h | h
        · exact Or.inl (List.mem_cons_of_mem a h)
        · exact Or.inr h

/-- Characters of a hostname label. -/
theorem labelB_chars (p : List Char) (h : labelB p = true) :
    ∀ c ∈ p, isAlnumC c = true ∨ c = '-' := by
  intro c hc
  cases p with
  | nil => cases hc
  | cons a rest =>
    unfold labelB at h
    rw [Bool.and_eq_true] at h
    obtain ⟨ha, h2⟩ := h
    rcases List.mem_cons.mp hc with rfl | hc2
    · exact Or.inl ha
    · cases rest with
      | nil => cases hc2
      | cons b bs =>
        rw [Bool.or_eq_true] at h2
        rcases h2 with h2 | h2
        · cases h2
        · rw [Bool.and_eq_true] at h2
          obtain ⟨hmid, hlast⟩ := h2
          rcases mem_dropLast_or_getLastD a (b :: bs) c hc2 with h3 | h3
          · have := (List.all_eq_true.mp hmid) c h3
            rw [Bool.or_eq_true, decide_eq_true_eq] at this
            rcases this with h4 | h4
            · exact Or.inl h4
            · exact Or.inr h4
          · rw [h3]
            exact Or.inl hlast

/-- Characters of a dot-atom local part. -/
theorem dotAtomB_chars (l : List Char) (h : dotAtomB l = true) :
    ∀ c ∈ l, atomCharB c = true ∨ c = '.' := by
  intro c hc
  unfold dotAtomB at h
  rw [Bool.and_eq_true] at h
  rcases mem_splitOnC '.' l c hc with rfl | ⟨p, hp, hcp⟩
  · exact Or.inr rfl
  · have := (List.all_eq_true.mp h.2) p hp
    rw [Bool.and_eq_true] at this
    exact Or.inl ((List.all_eq_true.mp this.2) c hcp)

/-- Characters of a dotted-labels domain. -/
theorem domainLabelsB_chars (d : List Char) (h : domainLabelsB d = true) :
    ∀ c ∈ d, isAlnumC c = true ∨ c = '-' ∨ c = '.' := by
  intro c hc
  unfold domainLabelsB at h
  rw [Bool.and_eq_true] at h
  rcases mem_splitOnC '.' d c hc with rfl | ⟨p, hp, hcp⟩
  · exact Or.inr (Or.inr rfl)
  · rcases labelB_chars p ((List.all_eq_true.mp h.2) p hp) c hcp with h2 | h2
    · exact Or.inl h2
    · exact Or.inr (Or.inl h2)

/-- A list is its `takeWhile` followed by the corresponding drop. -/
theorem takeWhile_append_drop (p : Char → Bool) :
    ∀ l : List Char, l.takeWhile p ++ l.drop (l.takeWhile p).length = l := by
  intro l
  induction l with
  | nil => rfl
  | cons a as ih =>
    by_cases hp : p a
    · rw [List.takeWhile_cons, if_pos hp]
      simp only [List.length_cons, List.drop_succ_cons, List.cons_append]
      rw [ih]
    · rw [List.takeWhile_cons, if_neg hp]
      rfl

/-- Structure of a string passing the stricter final pattern: a local
part before the first `@`, then `@`, then the domain part, each passing
its half of the pattern. -/
theorem finalCheck_decomp (e : List Char) (h : finalCheckB e = true) :
    ∃ le de, e = le ++ '@' :: de ∧ le = e.takeWhile (fun c => c ≠ '@') ∧
      simpleLocalB le = true ∧ simpleDomainB de = true := by
  unfold finalCheckB at h
  simp only [] at h
  cases hdrop : e.drop ((e.takeWhile (fun c => c ≠ '@')).length) with
  | nil =>
    rw [hdrop] at h
    cases h
  | cons c de =>
    rw [hdrop] at h
    split at h
    · next d heq =>
      injection heq with hc hde
      subst hc
      subst hde
      rw [Bool.and_eq_true] at h
      refine ⟨e.takeWhile (fun c => c ≠ '@'), de, ?_, rfl, h.1, h.2⟩
      conv_lhs => rw [← takeWhile_append_drop (fun c => decide (c ≠ '@')) e]
      rw [hdrop]
    · cases h

/-- Character classes and leading character of the final pattern's local
part. -/
theorem simpleLocal_chars (l : List Char) (h : simpleLocalB l = true) :
    ∃ c rest, l = c :: rest ∧ isAlnumC c = true ∧
      ∀ x ∈ l, isAlnumC x = true ∨ x = '.' ∨ x = '_' ∨ x = '-' := by
  cases l with
  | nil => cases h
  | cons c rest =>
    unfold simpleLocalB at h
    rw [Bool.and_eq_true] at h
    refine ⟨c, rest, rfl, h.1, ?_⟩
    intro x hx
    rcases List.mem_cons.mp hx with rfl | hx2
    · exact Or.inl h.1
    · have := (List.all_eq_true.mp h.2) x hx2
      simp only [Bool.or_eq_true, decide_eq_true_eq] at this
      tauto

/-- Character classes and leading character of the final pattern's domain
part. -/
theorem simpleDomain_chars (d : List Char) (h : simpleDomainB d = true) :
    ∃ c rest, d = c :: rest ∧ isAlnumC c = true ∧
      ∀ x ∈ d, isAlnumC x = true ∨ x = '.' ∨ x = '-' := by
  unfold simpleDomainB at h
  simp only [] at h
  rw [Bool.and_eq_true] at h
  obtain ⟨htld, hm⟩ := h
  cases hdrop : d.reverse.drop ((d.reverse.takeWhile isAlphaC).length) with
  | nil =>
    rw [hdrop] at hm
    cases hm
  | cons dot rp =>
    rw [hdrop] at hm
    rw [Bool.and_eq_true] at hm
    obtain ⟨hdot, hm2⟩ := hm
    rw [decide_eq_true_eq] at hdot
    subst hdot
    cases hrp : rp.reverse with
    | nil =>
      rw [hrp] at hm2
      cases hm2
    | cons c rest =>
      rw [hrp] at hm2
      rw [Bool.and_eq_true] at hm2
      obtain ⟨hc, hrest⟩ := hm2
      have hrd : d.reverse = (d.reverse.takeWhile isAlphaC) ++ '.' :: rp := by
        conv_lhs => rw [← takeWhile_append_drop isAlphaC d.reverse]
        rw [hdrop]
      generalize htl : List.takeWhile isAlphaC d.reverse = tl at hrd
      have hd : d = rp.reverse ++ '.' :: tl.reverse := by
        have h2 := congrArg List.reverse hrd
        rw [List.reverse_reverse] at h2
        rw [h2]
        simp
      refine ⟨c, rest ++ '.' :: tl.reverse, ?_, hc, ?_⟩
      · rw [hd, hrp]
        simp
      · intro x hx
        rw [hd] at hx
        rcases List.mem_append.mp hx with h1 | h2
        · rw [hrp] at h1
          rcases List.mem_cons.mp h1 with rfl | h3
          · exact Or.inl hc
          · have := (List.all_eq_true.mp hrest) x h3
            simp only [Bool.or_eq_true, decide_eq_true_eq] at this
            tauto
        · rcases List.mem_cons.mp h2 with rfl | h3
          · exact Or.inr (Or.inl rfl)
          · have hx3 : x ∈ tl := List.mem_reverse.mp h3
            rw [← htl] at hx3
            have : isAlphaC x = true := mem_takeWhile_pred _ _ x hx3
            exact Or.inl (by
              unfold isAlnumC
              rw [this]
              rfl)

/-- Character classes of a string passing the final pattern. -/
theorem finalCheck_chars (e : List Char) (h : finalCheckB e = true) :
    ∀ x ∈ e, isAlnumC x = true ∨ x = '.' ∨ x = '_' ∨ x = '-' ∨ x = '@' := by
  obtain ⟨le, de, hsplit, -, hl, hd⟩ := finalCheck_decomp e h
  obtain ⟨-, -, -, -, hlc⟩ := simpleLocal_chars le hl
  obtain ⟨-, -, -, -, hdc⟩ := simpleDomain_chars de hd
  intro x hx
  rw [hsplit] at hx
  rcases List.mem_append.mp hx with h1 | h2
  · rcases hlc x h1 with h3 | h3 | h3 | h3
    · exact Or.inl h3
    · exact Or.inr (Or.inl h3)
    · exact Or.inr (Or.inr (Or.inl h3))
    · exact Or.inr (Or.inr (Or.inr (Or.inl h3)))
  · rcases List.mem_cons.mp h2 with rfl | h3
    · exact Or.inr (Or.inr (Or.inr (Or.inr rfl)))
    · rcases hdc x h3 with h4 | h4 | h4
      · exact Or.inl h4
      · exact Or.inr (Or.inl h4)
      · exact Or.inr (Or.inr (Or.inr (Or.inl h4)))

/-- A character outside all the final pattern's classes does not occur in
a string passing it. -/
theorem finalCheck_no_char (e : List Char) (h : finalCheckB e = true)
    (b : Char) (hb : isAlnumC b = false ∧ b ≠ '.' ∧ b ≠ '_' ∧ b ≠ '-' ∧ b ≠ '@') :
    b ∉ e := by
  intro hmem
  rcases finalCheck_chars e h b hmem with h1 | h1 | h1 | h1 | h1
  · rw [hb.1] at h1
    cases h1
  · exact hb.2.1 h1
  · exact hb.2.2.1 h1
  · exact hb.2.2.2.1 h1
  · exact hb.2.2.2.2 h1

/-- Characters are determined by their code points. -/
theorem char_eq_of_toNat_eq (c d : Char) (h : c.toNat = d.toNat) : c = d := by
  apply Char.ext
  apply UInt32.ext
  exact h

/-- Code points below the surrogate range round-trip through
`Char.ofNat`. -/
theorem toNat_ofNat (n : Nat) (h : n < 55296) : (Char.ofNat n).toNat = n := by
  unfold Char.ofNat
  rw [dif_pos (Or.inl h)]
  rfl

/-- Arithmetic form of the alphanumeric class. -/
theorem isAlnumC_iff (c : Char) :
    isAlnumC c = true ↔ (97 ≤ c.toNat ∧ c.toNat ≤ 122) ∨
      (65 ≤ c.toNat ∧ c.toNat ≤ 90) ∨ (48 ≤ c.toNat ∧ c.toNat ≤ 57) := by
  unfold isAlnumC isAlphaC isLowerC isUpperC isDigitC
  simp only [Bool.or_eq_true, Bool.and_eq_true, decide_eq_true_eq]
  tauto

/-- Arithmetic form of the whitespace class. -/
theorem isWsC_iff (c : Char) :
    isWsC c = true ↔ (c.toNat = 32 ∨ c.toNat = 9 ∨ c.toNat = 10 ∨
      c.toNat = 13 ∨ c.toNat = 11 ∨ c.toNat = 12) := by
  unfold isWsC
  simp only [Bool.or_eq_true, decide_eq_true_eq]
  tauto

/-- Alphanumeric characters are not whitespace. -/
theorem isWsC_false_of_alnum (c : Char) (h : isAlnumC c = true) :
    isWsC c = false := by
  rw [isAlnumC_iff] at h
  rw [Bool.eq_false_iff]
  intro hws
  rw [isWsC_iff] at hws
  omega

/-- Code points atom characters cannot be: whitespace, the quote, the
`@`. -/
theorem atomCharB_toNat_ne (c : Char) (h : atomCharB c = true) :
    c.toNat ≠ 32 ∧ c.toNat ≠ 34 ∧ c.toNat ≠ 64 ∧ isWsC c = false := by
  unfold atomCharB at h
  rw [Bool.or_eq_true] at h
  have hnum : (97 ≤ c.toNat ∧ c.toNat ≤ 122) ∨
      (65 ≤ c.toNat ∧ c.toNat ≤ 90) ∨ (48 ≤ c.toNat ∧ c.toNat ≤ 57) ∨
      c.toNat ∈ [33, 35, 36, 37, 38, 39, 42, 43, 45, 47, 61, 63, 94, 95, 96,
        123, 124, 125, 126] := by
    rcases h with h | h
    · rw [isAlnumC_iff] at h
      tauto
    · right; right; right
      rw [← List.elem_iff]
      exact h
  simp only [List.mem_cons, List.not_mem_nil, or_false] at hnum
  refine ⟨by omega, by omega, by omega, ?_⟩
  rw [Bool.eq_false_iff]
  intro hws
  rw [isWsC_iff] at hws
  omega

/-- What `str.lower` does to one character: fixes it, or shifts an
uppercase letter down into the lowercase range. -/
theorem toLowerC_eq (c : Char) :
    toLowerC c = c ∨ (65 ≤ c.toNat ∧ c.toNat ≤ 90 ∧
      (toLowerC c).toNat = c.toNat + 32) := by
  unfold toLowerC
  by_cases hc : 65 ≤ c.toNat ∧ c.toNat ≤ 90
  · rw [if_pos (by simp only [Bool.and_eq_true, decide_eq_true_eq]; exact hc)]
    exact Or.inr ⟨hc.1, hc.2, toNat_ofNat _ (by omega)⟩
  · rw [if_neg (by simp only [Bool.and_eq_true, decide_eq_true_eq]; exact hc)]
    exact Or.inl rfl

/-- `str.lower` fixes characters outside the uppercase range. -/
theorem toLowerC_eq_self_of_not (c : Char)
    (h : ¬(65 ≤ c.toNat ∧ c.toNat ≤ 90)) : toLowerC c = c := by
  unfold toLowerC
  rw [if_neg (by simp only [Bool.and_eq_true, decide_eq_true_eq]; exact h)]

/-- Lowercasing one character is idempotent. -/
theorem toLowerC_idem (c : Char) : toLowerC (toLowerC c) = toLowerC c := by
  rcases toLowerC_eq c with h | ⟨hr1, hr2, h3⟩
  · rw [h, h]
  · exact toLowerC_eq_self_of_not _ (by omega)

/-- Lowercasing a whole string is idempotent. -/
theorem toLowerL_idem (s : List Char) : toLowerL (toLowerL s) = toLowerL s := by
  unfold toLowerL
  rw [List.map_map]
  exact List.map_congr_left (fun c _ => toLowerC_idem c)

/-- A character whose lowercase form sits outside the lowercase-letter
range was already that character. -/
theorem toLowerC_eq_char (c t : Char) (ht : t.toNat < 97 ∨ 122 < t.toNat)
    (h : toLowerC c = t) : c = t := by
  rcases toLowerC_eq c with h1 | ⟨hr1, hr2, h3⟩
  · rw [← h1, h]
  · rw [h] at h3
    omega

/-- The alphanumeric class is closed under lowercasing. -/
theorem isAlnumC_toLower (c : Char) (h : isAlnumC c = true) :
    isAlnumC (toLowerC c) = true := by
  rcases toLowerC_eq c with h1 | ⟨hr1, hr2, h3⟩
  · rw [h1]; exact h
  · rw [isAlnumC_iff] at h ⊢
    omega

/-- The atom-character class is closed under lowercasing. -/
theorem atomCharB_toLower (c : Char) (h : atomCharB c = true) :
    atomCharB (toLowerC c) = true := by
  rcases toLowerC_eq c with h1 | ⟨hr1, hr2, h3⟩
  · rw [h1]; exact h
  · have : isAlnumC (toLowerC c) = true := by
      rw [isAlnumC_iff]
      omega
    unfold atomCharB
    rw [this]
    rfl

/-- Bounded-length worker for `quotedRest_split`. -/
theorem quotedRest_split_aux : ∀ (n : Nat) (cs : List Char), cs.length ≤ n →
    ∀ r, quotedRest cs = some r →
      ∃ q, cs = q ++ '"' :: r ∧ ('\\' ∉ q → ' ' ∉ q) := by
  intro n
  induction n with
  | zero =>
    intro cs hlen r h
    have hnil : cs = [] := List.eq_nil_of_length_eq_zero (Nat.le_zero.mp hlen)
    subst hnil
    cases h
  | succ n ih =>
    intro cs hlen r h
    cases cs with
    | nil => cases h
    | cons c cs2 =>
      unfold quotedRest at h
      by_cases h34 : c.toNat = 34
      · rw [if_pos h34] at h
        injection h with h2
        subst h2
        have hc : c = '"' := char_eq_of_toNat_eq c '"' (by rw [h34]; rfl)
        exact ⟨[], by rw [hc, List.nil_append], fun _ hs => absurd hs (List.not_mem_nil ' ')⟩
      · rw [if_neg h34] at h
        by_cases h92 : c.toNat = 92
        · rw [if_pos h92] at h
          cases cs2 with
          | nil => cases h
          | cons e cs3 =>
            have h2 : (if echarB e = true then quotedRest cs3 else none) = some r := h
            by_cases he : echarB e = true
            · rw [if_pos he] at h2
              obtain ⟨q2, hq1, hq2⟩ := ih cs3
                (by simp only [List.length_cons] at hlen; omega) r h2
              refine ⟨c :: e :: q2, by rw [hq1]; simp, ?_⟩
              intro hnb
              exfalso
              apply hnb
              have hc : c = '\\' := char_eq_of_toNat_eq c '\\' (by rw [h92]; rfl)
              rw [← hc]
              exact List.mem_cons_self c _
            · rw [if_neg he] at h2
              cases h2
        · rw [if_neg h92] at h
          by_cases hqc : qcharB c = true
          · rw [if_pos hqc] at h
            obtain ⟨q2, hq1, hq2⟩ := ih cs2
              (by simp only [List.length_cons] at hlen; omega) r h
            refine ⟨c :: q2, by rw [hq1]; simp, ?_⟩
            intro hnb hs
            rcases List.mem_cons.mp hs with heq | hs2
            · rw [← heq] at hqc
              exact absurd hqc (by decide)
            · exact hq2 (fun hm => hnb (List.mem_cons_of_mem c hm)) hs2
          · rw [if_neg hqc] at h
            cases h

/-- A successful quoted-string scan splits its input at the closing
quote, and the consumed part can hold a space only behind a backslash. -/
theorem quotedRest_split (cs r : List Char) (h : quotedRest cs = some r) :
    ∃ q, cs = q ++ '"' :: r ∧ ('\\' ∉ q → ' ' ∉ q) :=
  quotedRest_split_aux cs.length cs (Nat.le_refl _) r h

/-- A successful octet-dot step splits its input as digits, a dot and the
remainder. -/
theorem takeOctetDot_decomp (s s1 : List Char) (h : takeOctetDot s = some s1) :
    ∃ ds, s = ds ++ '.' :: s1 ∧ ds.all isDigitC = true := by
  unfold takeOctetDot at h
  simp only [] at h
  by_cases hoct : octetB (s.takeWhile isDigitC) = true
  · rw [if_pos hoct] at h
    cases hdrop : s.drop ((s.takeWhile isDigitC).length) with
    | nil =>
      rw [hdrop] at h
      exact Option.noConfusion h
    | cons c cs =>
      rw [hdrop] at h
      have h3 : (if c = '.' then some cs else none) = some s1 := h
      by_cases hdot : c = '.'
      · rw [if_pos hdot] at h3
        injection h3 with h2
        subst h2
        refine ⟨s.takeWhile isDigitC, ?_, ?_⟩
        · conv_lhs => rw [← takeWhile_append_drop isDigitC s]
          rw [hdrop, hdot]
        · rw [List.all_eq_true]
          intro x hx
          exact mem_takeWhile_pred _ _ x hx
      · rw [if_neg hdot] at h3
        cases h3
  · rw [if_neg hoct] at h
    cases h

/-- Bounded-length worker for `ipTail_space`. -/
theorem ipTail_space_aux : ∀ (n : Nat) (t : List Char), t.length ≤ n →
    ipTailOk t = true → '\\' ∉ t → ' ' ∉ t := by
  intro n
  induction n with
  | zero =>
    intro t hlen _ _ hsp
    have hnil : t = [] := List.eq_nil_of_length_eq_zero (Nat.le_zero.mp hlen)
    subst hnil
    cases hsp
  | succ n ih =>
    intro t hlen h hb hsp
    cases t with
    | nil => cases hsp
    | cons c cs =>
      unfold ipTailOk at h
      rw [Bool.or_eq_true] at h
      rcases h with h1 | h2
      · rw [Bool.and_eq_true] at h1
        rcases List.mem_cons.mp hsp with heq | hsp2
        · rw [← heq] at h1
          exact absurd h1.1 (by decide)
        · exact ih cs (by simp only [List.length_cons] at hlen; omega) h1.2
            (fun hm => hb (List.mem_cons_of_mem c hm)) hsp2
      · rw [Bool.and_eq_true, decide_eq_true_eq] at h2
        apply hb
        have hc : c = '\\' := char_eq_of_toNat_eq c '\\' (by rw [h2.1]; rfl)
        rw [← hc]
        exact List.mem_cons_self c cs

/-- The IP-literal tail cannot hold a space without a backslash. -/
theorem ipTail_space (t : List Char) (h : ipTailOk t = true)
    (hb : '\\' ∉ t) : ' ' ∉ t :=
  ipTail_space_aux t.length t (Nat.le_refl _) h hb

/-- The inside of a bracketed IP literal cannot hold a space without a
backslash. -/
theorem ipInner_space (s : List Char) (h : ipInnerB s = true)
    (hb : '\\' ∉ s) : ' ' ∉ s := by
  intro hsp
  unfold ipInnerB at h
  split at h
  · cases h
  · next s1 heq1 =>
    split at h
    · cases h
    · next s2 heq2 =>
      split at h
      · cases h
      · next s3 heq3 =>
        obtain ⟨ds1, hd1, ha1⟩ := takeOctetDot_decomp s s1 heq1
        obtain ⟨ds2, hd2, ha2⟩ := takeOctetDot_decomp s1 s2 heq2
        obtain ⟨ds3, hd3, ha3⟩ := takeOctetDot_decomp s2 s3 heq3
        have hstep : ∀ (u v dsx : List Char), u = dsx ++ '.' :: v →
            dsx.all isDigitC = true → ' ' ∈ u → ' ' ∈ v := by
          intro u v dsx hu hall hmem
          rw [hu] at hmem
          rcases List.mem_append.mp hmem with h1 | h2
          · exact absurd ((List.all_eq_true.mp hall) _ h1) (by decide)
          · rcases List.mem_cons.mp h2 with h3 | h3
            · exact absurd h3 (by decide)
            · exact h3
        have hsub : ∀ (u v dsx : List Char), u = dsx ++ '.' :: v →
            ∀ x, x ∈ v → x ∈ u := by
          intro u v dsx hu x hx
          rw [hu]
          exact List.mem_append_right _ (List.mem_cons_of_mem _ hx)
        have hsp3 : ' ' ∈ s3 :=
          hstep s2 s3 ds3 hd3 ha3
            (hstep s1 s2 ds2 hd2 ha2 (hstep s s1 ds1 hd1 ha1 hsp))
        have hb3 : '\\' ∉ s3 := fun hm =>
          hb (hsub s s1 ds1 hd1 _ (hsub s1 s2 ds2 hd2 _
            (hsub s2 s3 ds3 hd3 _ hm)))
        rw [Bool.or_eq_true] at h
        rcases h with hoct | hrest
        · unfold octetB at hoct
          rw [Bool.and_eq_true] at hoct
          exact absurd ((List.all_eq_true.mp hoct.1) _ hsp3) (by decide)
        · simp only [] at hrest
          split at hrest
          · next c tail heq4 =>
            rw [Bool.and_eq_true, Bool.and_eq_true, Bool.and_eq_true] at hrest
            obtain ⟨⟨⟨hcol, hname⟩, hne⟩, htail⟩ := hrest
            rw [decide_eq_true_eq] at hcol
            subst hcol
            have hs3 : s3 = (s3.takeWhile (fun c => decide (c ≠ ':'))) ++ ':' :: tail := by
              conv_lhs => rw [← takeWhile_append_drop (fun c => decide (c ≠ ':')) s3]
              rw [heq4]
            rw [hs3] at hsp3 hb3
            rcases List.mem_append.mp hsp3 with h1 | h2
            · unfold ipNameB at hname
              rw [Bool.and_eq_true, Bool.and_eq_true] at hname
              have h4 := (List.all_eq_true.mp hname.1.2) _ h1
              simp only [Bool.or_eq_true, decide_eq_true_eq] at h4
              rcases h4 with h5 | h5
              · exact absurd h5 (by decide)
              · exact absurd h5 (by decide)
            · rcases List.mem_cons.mp h2 with h3 | h3
              · exact absurd h3 (by decide)
              · have hbtail : '\\' ∉ tail := fun hm =>
                  hb3 (List.mem_append_right _ (List.mem_cons_of_mem _ hm))
                exact ipTail_space tail htail hbtail h3
          · cases hrest

/-- One unfolding step of `splitOnC` on a cons. -/
theorem splitOnC_cons_eq (sep c : Char) (cs : List Char) :
    splitOnC sep (c :: cs) = if c = sep then [] :: splitOnC sep cs
      else match splitOnC sep cs with
        | [] => [[c]]
        | r :: rs => (c :: r) :: rs := rfl

/-- A split never produces the empty list of parts. -/
theorem splitOnC_ne_nil (sep : Char) : ∀ l : List Char, splitOnC sep l ≠ [] := by
  intro l
  cases l with
  | nil =>
    intro h
    exact List.noConfusion h
  | cons c cs =>
    rw [splitOnC_cons_eq]
    by_cases hc : c = sep
    · rw [if_pos hc]
      intro h
      exact List.noConfusion h
    · rw [if_neg hc]
      cases hrest : splitOnC sep cs with
      | nil =>
        intro h
        exact List.noConfusion h
      | cons r rs =>
        intro h
        exact List.noConfusion h

/-- A dot-atom local part starts with an atom character. -/
theorem dotAtom_head (l : List Char) (h : dotAtomB l = true) :
    ∃ c rest, l = c :: rest ∧ atomCharB c = true := by
  unfold dotAtomB at h
  rw [Bool.and_eq_true] at h
  obtain ⟨hne, hall⟩ := h
  cases l with
  | nil => simp at hne
  | cons c rest =>
    refine ⟨c, rest, rfl, ?_⟩
    by_cases hc : c = '.'
    · exfalso
      have h1 := (List.all_eq_true.mp hall) []
        (by rw [splitOnC_cons_eq, if_pos hc]; exact List.mem_cons_self _ _)
      simp at h1
    · cases hrest : splitOnC '.' rest with
      | nil => exact absurd hrest (splitOnC_ne_nil '.' rest)
      | cons r rs =>
        have hmem : (c :: r) ∈ splitOnC '.' (c :: rest) := by
          rw [splitOnC_cons_eq, if_neg hc, hrest]
          exact List.mem_cons_self _ _
        have h1 := (List.all_eq_true.mp hall) _ hmem
        rw [Bool.and_eq_true] at h1
        exact (List.all_eq_true.mp h1.2) c (List.mem_cons_self c r)

/-- A bracketed IP literal cannot hold a space without a backslash. -/
theorem ipLiteral_space (d : List Char) (h : ipLiteralB d = true)
    (hb : '\\' ∉ d) : ' ' ∉ d := by
  intro hsp
  cases d with
  | nil => cases hsp
  | cons c rest =>
    unfold ipLiteralB at h
    rw [Bool.and_eq_true] at h
    obtain ⟨hc, h2⟩ := h
    rw [decide_eq_true_eq] at hc
    split at h2
    · next lc heql =>
      rw [Bool.and_eq_true, decide_eq_true_eq] at h2
      obtain ⟨hlc, hinner⟩ := h2
      have hne : rest ≠ [] := by
        intro hn
        rw [hn] at heql
        exact Option.noConfusion heql
      have hg := List.getLast?_eq_getLast rest hne
      rw [heql] at hg
      injection hg with hg2
      have hrest : rest.dropLast ++ [']'] = rest := by
        rw [← hlc, hg2]
        exact List.dropLast_append_getLast hne
      rcases List.mem_cons.mp hsp with heqc | hsp2
      · rw [← heqc] at hc
        exact absurd hc (by decide)
      · rw [← hrest] at hsp2
        rcases List.mem_append.mp hsp2 with h1 | h2
        · have hbin : '\\' ∉ rest.dropLast := fun hm =>
            hb (List.mem_cons_of_mem c (by rw [← hrest]; exact List.mem_append_left _ hm))
          exact ipInner_space rest.dropLast hinner hbin h1
        · rcases List.mem_cons.mp h2 with h3 | h3
          · exact absurd h3 (by decide)
          · cases h3
    · cases h2

/-- A full-pattern domain cannot hold a space without a backslash. -/
theorem domainB_space (d : List Char) (h : domainB d = true)
    (hb : '\\' ∉ d) : ' ' ∉ d := by
  intro hsp
  unfold domainB at h
  rw [Bool.or_eq_true] at h
  rcases h with h | h
  · rcases domainLabelsB_chars d h ' ' hsp with h1 | h1 | h1
    · exact absurd h1 (by decide)
    · exact absurd h1 (by decide)
    · exact absurd h1 (by decide)
  · exact ipLiteral_space d h hb hsp

/-- A string matching the full email pattern and holding no backslash
holds no space: the only productions admitting a space require a
backslash escape. -/
theorem fullMatch_space (t : List Char) (h : emailFullMatch t = true)
    (hb : '\\' ∉ t) : ' ' ∉ t := by
  intro hsp
  cases t with
  | nil => cases hsp
  | cons c cs =>
    have h2 : (if c.toNat = 34 then
        match quotedRest cs with
        | some ('@' :: d) => domainB d
        | _ => false
      else
        match (c :: cs).drop (((c :: cs).takeWhile (fun x => decide (x ≠ '@'))).length) with
        | '@' :: d => dotAtomB ((c :: cs).takeWhile (fun x => decide (x ≠ '@'))) && domainB d
        | _ => false) = true := h
    clear h
    by_cases h34 : c.toNat = 34
    · rw [if_pos h34] at h2
      split at h2
      · next d heq =>
        obtain ⟨q, hq1, hq2⟩ := quotedRest_split cs _ heq
        have hbcs : '\\' ∉ cs := fun hm => hb (List.mem_cons_of_mem c hm)
        rcases List.mem_cons.mp hsp with heqc | hsp2
        · rw [← heqc] at h34
          exact absurd h34 (by decide)
        · rw [hq1] at hsp2 hbcs
          rcases List.mem_append.mp hsp2 with hA | hB
          · exact hq2 (fun hm => hbcs (List.mem_append_left _ hm)) hA
          · rcases List.mem_cons.mp hB with h3 | h3
            · exact absurd h3 (by decide)
            · rcases List.mem_cons.mp h3 with h4 | h4
              · exact absurd h4 (by decide)
              · exact domainB_space d h2
                  (fun hm => hbcs (List.mem_append_right _
                    (List.mem_cons_of_mem _ (List.mem_cons_of_mem _ hm)))) h4
      · cases h2
    · rw [if_neg h34] at h2
      split at h2
      · next d heq =>
        rw [Bool.and_eq_true] at h2
        obtain ⟨hatom, hdom⟩ := h2
        have hdecomp : c :: cs =
            ((c :: cs).takeWhile (fun x => decide (x ≠ '@'))) ++ '@' :: d := by
          conv_lhs => rw [← takeWhile_append_drop (fun x => decide (x ≠ '@')) (c :: cs)]
          rw [heq]
        rw [hdecomp] at hsp hb
        rcases List.mem_append.mp hsp with h1 | h2
        · rcases dotAtomB_chars _ hatom ' ' h1 with h3 | h3
          · exact absurd h3 (by decide)
          · exact absurd h3 (by decide)
        · rcases List.mem_cons.mp h2 with h3 | h3
          · exact absurd h3 (by decide)
          · exact domainB_space d hdom
              (fun hm => hb (List.mem_append_right _ (List.mem_cons_of_mem _ hm))) h3
      · cases h2

/-- The default of `getLastD` is irrelevant on a non-empty list. -/
theorem getLastD_irrel {α : Type} (l : List α) (h : l ≠ []) (d1 d2 : α) :
    l.getLastD d1 = l.getLastD d2 := by
  cases l with
  | nil => exact absurd rfl h
  | cons c cs => rw [List.getLastD_cons, List.getLastD_cons]

/-- `getLastD` of an append with a non-empty right part. -/
theorem getLastD_append {α : Type} (u p : List α) (hp : p ≠ []) :
    ∀ x, (u ++ p).getLastD x = p.getLastD x := by
  induction u with
  | nil => intro x; rfl
  | cons a u ih =>
    intro x
    rw [List.cons_append, List.getLastD_cons, ih a]
    exact getLastD_irrel p hp a x

/-- `getLastD` of a non-empty list is one of its elements. -/
theorem getLastD_mem {α : Type} : ∀ (l : List α), l ≠ [] → ∀ (d : α),
    l.getLastD d ∈ l := by
  intro l
  induction l with
  | nil => intro h; exact absurd rfl h
  | cons c cs ih =>
    intro _ d
    rw [List.getLastD_cons]
    cases cs with
    | nil => exact List.mem_cons_self _ _
    | cons b bs =>
      exact List.mem_cons_of_mem c (ih (List.cons_ne_nil b bs) c)

/-- `getLastD` agrees with `getLast` on a non-empty list. -/
theorem getLastD_eq_getLast {α : Type} : ∀ (l : List α) (h : l ≠ []) (d : α),
    l.getLastD d = l.getLast h := by
  intro l
  induction l with
  | nil => intro h; exact absurd rfl h
  | cons c cs ih =>
    intro _ d
    rw [List.getLastD_cons]
    cases cs with
    | nil => rfl
    | cons b bs =>
      rw [ih (List.cons_ne_nil b bs) c, List.getLast_cons (List.cons_ne_nil b bs)]

/-- A one-part split returns the whole string. -/
theorem splitOnC_singleton (sep : Char) : ∀ (l r : List Char),
    splitOnC sep l = [r] → r = l := by
  intro l
  induction l with
  | nil =>
    intro r h
    injection h with h1 h2
    exact h1.symm
  | cons c cs ih =>
    intro r h
    rw [splitOnC_cons_eq] at h
    by_cases hc : c = sep
    · rw [if_pos hc] at h
      injection h with h1 h2
      exact absurd h2 (splitOnC_ne_nil sep cs)
    · rw [if_neg hc] at h
      cases hrest : splitOnC sep cs with
      | nil => exact absurd hrest (splitOnC_ne_nil sep cs)
      | cons r0 rs =>
        rw [hrest] at h
        injection h with h1 h2
        subst h2
        rw [← h1, ih r0 hrest]

/-- The last part of a split is a suffix of the split string. -/
theorem splitOnC_last_suffix (sep : Char) : ∀ l : List Char,
    (splitOnC sep l).getLastD [] <:+ l := by
  intro l
  induction l with
  | nil => exact List.suffix_refl []
  | cons c cs ih =>
    rw [splitOnC_cons_eq]
    by_cases hc : c = sep
    · rw [if_pos hc]
      cases hrest : splitOnC sep cs with
      | nil => exact absurd hrest (splitOnC_ne_nil sep cs)
      | cons r rs =>
        rw [List.getLastD_cons]
        rw [hrest, List.getLastD_cons] at ih
        have ih2 : (r :: rs).getLastD [] <:+ cs := by
          cases rs with
          | nil => exact ih
          | cons r2 rs2 =>
            rw [List.getLastD_cons]
            exact ih
        exact ih2.trans (List.suffix_cons c cs)
    · rw [if_neg hc]
      cases hrest : splitOnC sep cs with
      | nil => exact absurd hrest (splitOnC_ne_nil sep cs)
      | cons r rs =>
        cases rs with
        | nil =>
          have h1 : r = cs := splitOnC_singleton sep cs r hrest
          subst h1
          exact List.suffix_refl _
        | cons r2 rs2 =>
          rw [hrest, List.getLastD_cons] at ih
          rw [List.getLastD_cons]
          rw [getLastD_irrel (r2 :: rs2) (List.cons_ne_nil _ _) (c :: r) r]
          exact ih.trans (List.suffix_cons c cs)

/-- The last character of a hostname label is alphanumeric. -/
theorem labelB_last (p : List Char) (h : labelB p = true) (d : Char) :
    isAlnumC (p.getLastD d) = true := by
  cases p with
  | nil => cases h
  | cons c rest =>
    unfold labelB at h
    rw [Bool.and_eq_true] at h
    obtain ⟨hc, h2⟩ := h
    rw [List.getLastD_cons]
    cases rest with
    | nil => exact hc
    | cons b bs =>
      rw [Bool.or_eq_true] at h2
      rcases h2 with h3 | h3
      · simp at h3
      · rw [Bool.and_eq_true] at h3
        exact h3.2

/-- A labels domain is non-empty and ends in an alphanumeric
character. -/
theorem domainLabels_last (dm : List Char) (h : domainLabelsB dm = true)
    (d : Char) : dm ≠ [] ∧ isAlnumC (dm.getLastD d) = true := by
  unfold domainLabelsB at h
  simp only [] at h
  rw [Bool.and_eq_true] at h
  obtain ⟨hlen, hall⟩ := h
  have hplab : labelB ((splitOnC '.' dm).getLastD []) = true :=
    (List.all_eq_true.mp hall) _ (getLastD_mem _ (splitOnC_ne_nil '.' dm) [])
  have hpne : (splitOnC '.' dm).getLastD [] ≠ [] := by
    intro hn
    rw [hn] at hplab
    cases hplab
  obtain ⟨u, hu⟩ := splitOnC_last_suffix '.' dm
  constructor
  · intro hn
    subst hn
    exact hpne rfl
  · rw [← hu, getLastD_append u _ hpne d]
    exact labelB_last _ hplab d

/-- A full-pattern domain is non-empty and does not end in whitespace. -/
theorem domainB_last (dm : List Char) (h : domainB dm = true) (d : Char) :
    dm ≠ [] ∧ isWsC (dm.getLastD d) = false := by
  unfold domainB at h
  rw [Bool.or_eq_true] at h
  rcases h with h | h
  · obtain ⟨hne, hal⟩ := domainLabels_last dm h d
    exact ⟨hne, isWsC_false_of_alnum _ hal⟩
  · cases dm with
    | nil => cases h
    | cons c rest =>
      unfold ipLiteralB at h
      rw [Bool.and_eq_true] at h
      obtain ⟨hc, h2⟩ := h
      split at h2
      · next lc heql =>
        rw [Bool.and_eq_true, decide_eq_true_eq] at h2
        obtain ⟨hlc, -⟩ := h2
        have hne : rest ≠ [] := by
          intro hn
          rw [hn] at heql
          exact Option.noConfusion heql
        have hg := List.getLast?_eq_getLast rest hne
        rw [heql] at hg
        injection hg with hg2
        have hrest : rest.dropLast ++ [']'] = rest := by
          rw [← hlc, hg2]
          exact List.dropLast_append_getLast hne
        refine ⟨List.cons_ne_nil c rest, ?_⟩
        rw [List.getLastD_cons, ← hrest,
          getLastD_append _ _ (List.cons_ne_nil _ _) c]
        exact (by decide : isWsC ']' = false)
      · cases h2

/-- A full email match is non-empty and neither starts nor ends with
whitespace. -/
theorem fullMatch_ends (m : List Char) (h : emailFullMatch m = true) :
    ∃ c cs, m = c :: cs ∧ isWsC c = false ∧ isWsC (m.getLastD ' ') = false := by
  cases m with
  | nil => cases h
  | cons c cs =>
    have h2 : (if c.toNat = 34 then
        match quotedRest cs with
        | some ('@' :: d) => domainB d
        | _ => false
      else
        match (c :: cs).drop (((c :: cs).takeWhile (fun x => decide (x ≠ '@'))).length) with
        | '@' :: d => dotAtomB ((c :: cs).takeWhile (fun x => decide (x ≠ '@'))) && domainB d
        | _ => false) = true := h
    clear h
    by_cases h34 : c.toNat = 34
    · rw [if_pos h34] at h2
      split at h2
      · next d heq =>
        obtain ⟨q, hq1, -⟩ := quotedRest_split cs _ heq
        refine ⟨c, cs, rfl, ?_, ?_⟩
        · rw [Bool.eq_false_iff]
          intro hws
          rw [isWsC_iff] at hws
          omega
        · obtain ⟨hdne, -⟩ := domainB_last d h2 ' '
          rw [hq1, List.getLastD_cons,
            show q ++ '"' :: '@' :: d = (q ++ ['"', '@']) ++ d by simp,
            getLastD_append _ _ hdne c]
          exact (domainB_last d h2 c).2
      · cases h2
    · rw [if_neg h34] at h2
      split at h2
      · next d heq =>
        rw [Bool.and_eq_true] at h2
        obtain ⟨hatom, hdom⟩ := h2
        obtain ⟨a, arest, hl, hac⟩ := dotAtom_head _ hatom
        have hdecomp : c :: cs =
            ((c :: cs).takeWhile (fun x => decide (x ≠ '@'))) ++ '@' :: d := by
          conv_lhs => rw [← takeWhile_append_drop (fun x => decide (x ≠ '@')) (c :: cs)]
          rw [heq]
        have hc_eq : c = a := by
          have h3 := congrArg (fun l => l.headD ' ') hdecomp
          rw [hl] at h3
          simpa using h3
        refine ⟨c, cs, rfl, ?_, ?_⟩
        · rw [hc_eq]
          exact (atomCharB_toNat_ne a hac).2.2.2
        · obtain ⟨hdne, -⟩ := domainB_last d hdom ' '
          conv_lhs => rw [hdecomp]
          rw [show ((c :: cs).takeWhile (fun x => decide (x ≠ '@'))) ++ '@' :: d =
              (((c :: cs).takeWhile (fun x => decide (x ≠ '@'))) ++ ['@']) ++ d by simp,
            getLastD_append _ _ hdne ' ']
          exact (domainB_last d hdom ' ').2
      · cases h2

/-- A list that neither starts nor ends in whitespace is fixed by
`str.strip`. -/
theorem stripWs_eq_self (m : List Char) (c : Char) (cs : List Char)
    (hm : m = c :: cs) (h1 : isWsC c = false)
    (h2 : isWsC (m.getLastD ' ') = false) : stripWs m = m := by
  subst hm
  unfold stripWs
  rw [List.dropWhile_cons, if_neg (by simp [h1])]
  have hgne : isWsC ((c :: cs).getLast (List.cons_ne_nil c cs)) = false := by
    rw [← getLastD_eq_getLast _ (List.cons_ne_nil c cs) ' ']
    exact h2
  have hrev : (c :: cs).reverse =
      (c :: cs).getLast (List.cons_ne_nil c cs) :: (c :: cs).dropLast.reverse := by
    conv_lhs => rw [← List.dropLast_append_getLast (List.cons_ne_nil c cs)]
    rw [List.reverse_append]
    simp
  rw [hrev, List.dropWhile_cons, if_neg (by simp [hgne]), ← hrev,
    List.reverse_reverse]

/-- A full email match is fixed by `str.strip`. -/
theorem fullMatch_strip (m : List Char) (h : emailFullMatch m = true) :
    stripWs m = m := by
  obtain ⟨c, cs, hm, h1, h2⟩ := fullMatch_ends m h
  exact stripWs_eq_self m c cs hm h1 h2

/-- `getLastD` commutes with `map`. -/
theorem getLastD_map {α β : Type} (f : α → β) : ∀ (l : List α) (d : α),
    (l.map f).getLastD (f d) = f (l.getLastD d) := by
  intro l
  induction l with
  | nil => intro d; rfl
  | cons c cs ih =>
    intro d
    rw [List.map_cons, List.getLastD_cons, List.getLastD_cons, ih c]

/-- Splitting on a dot commutes with lowercasing. -/
theorem splitOnC_map_toLower : ∀ l : List Char,
    splitOnC '.' (toLowerL l) = (splitOnC '.' l).map toLowerL := by
  intro l
  induction l with
  | nil => rfl
  | cons c cs ih =>
    have he : toLowerL (c :: cs) = toLowerC c :: toLowerL cs := rfl
    rw [he, splitOnC_cons_eq, splitOnC_cons_eq]
    by_cases hc : c = '.'
    · rw [if_pos hc, if_pos (by rw [hc]; decide), List.map_cons, ih]
      rfl
    · have hc2 : toLowerC c ≠ '.' :=
        fun heq => hc (toLowerC_eq_char c '.' (Or.inl (by decide)) heq)
      rw [if_neg hc, if_neg hc2, ih]
      cases hrest : splitOnC '.' cs with
      | nil => exact absurd hrest (splitOnC_ne_nil '.' cs)
      | cons r rs => rfl

/-- The dot-atom local pattern is closed under lowercasing. -/
theorem dotAtomB_toLower (l : List Char) (h : dotAtomB l = true) :
    dotAtomB (toLowerL l) = true := by
  unfold dotAtomB at h ⊢
  rw [Bool.and_eq_true] at h ⊢
  obtain ⟨hne, hall⟩ := h
  constructor
  · cases l with
    | nil => exact absurd hne (by decide)
    | cons c cs => rfl
  · rw [splitOnC_map_toLower, List.all_eq_true]
    intro p hp
    rw [List.mem_map] at hp
    obtain ⟨p0, hp0, hpeq⟩ := hp
    subst hpeq
    have h1 := (List.all_eq_true.mp hall) p0 hp0
    rw [Bool.and_eq_true] at h1 ⊢
    refine ⟨?_, ?_⟩
    · cases p0 with
      | nil => exact absurd h1.1 (by decide)
      | cons c cs => rfl
    · rw [List.all_eq_true]
      intro x hx
      rw [show toLowerL p0 = p0.map toLowerC from rfl, List.mem_map] at hx
      obtain ⟨x0, hx0, hxeq⟩ := hx
      subst hxeq
      exact atomCharB_toLower x0 ((List.all_eq_true.mp h1.2) x0 hx0)

/-- The hostname-label pattern is closed under lowercasing. -/
theorem labelB_toLower (p : List Char) (h : labelB p = true) :
    labelB (toLowerL p) = true := by
  cases p with
  | nil => cases h
  | cons c rest =>
    have h2 : (isAlnumC c && (rest.isEmpty ||
        (rest.dropLast.all (fun x => isAlnumC x || decide (x = '-')) &&
         isAlnumC (rest.getLastD c)))) = true := h
    show (isAlnumC (toLowerC c) && ((toLowerL rest).isEmpty ||
        ((toLowerL rest).dropLast.all (fun x => isAlnumC x || decide (x = '-')) &&
         isAlnumC ((toLowerL rest).getLastD (toLowerC c))))) = true
    rw [Bool.and_eq_true] at h2 ⊢
    obtain ⟨hc, hrest⟩ := h2
    refine ⟨isAlnumC_toLower c hc, ?_⟩
    rw [Bool.or_eq_true] at hrest ⊢
    rcases hrest with h3 | h3
    · left
      cases rest with
      | nil => rfl
      | cons b bs => simp at h3
    · right
      rw [Bool.and_eq_true] at h3 ⊢
      obtain ⟨hall, hlast⟩ := h3
      constructor
      · rw [List.all_eq_true]
        intro x hx
        have hx2 : x ∈ (rest.dropLast).map toLowerC := by
          rw [List.map_dropLast]
          exact hx
        rw [List.mem_map] at hx2
        obtain ⟨x0, hx0, hxeq⟩ := hx2
        subst hxeq
        have h4 := (List.all_eq_true.mp hall) x0 hx0
        rw [Bool.or_eq_true] at h4 ⊢
        rcases h4 with h5 | h5
        · exact Or.inl (isAlnumC_toLower x0 h5)
        · rw [decide_eq_true_eq] at h5
          subst h5
          exact Or.inr (by decide)
      · rw [show toLowerL rest = rest.map toLowerC from rfl,
          getLastD_map toLowerC rest c]
        exact isAlnumC_toLower _ hlast

/-- The dotted-labels domain pattern is closed under lowercasing. -/
theorem domainLabelsB_toLower (d : List Char) (h : domainLabelsB d = true) :
    domainLabelsB (toLowerL d) = true := by
  unfold domainLabelsB at h ⊢
  simp only [] at h ⊢
  rw [Bool.and_eq_true] at h ⊢
  obtain ⟨hlen, hall⟩ := h
  rw [splitOnC_map_toLower]
  constructor
  · rw [decide_eq_true_eq] at hlen ⊢
    rw [List.length_map]
    exact hlen
  · rw [List.all_eq_true]
    intro p hp
    rw [List.mem_map] at hp
    obtain ⟨p0, hp0, hpeq⟩ := hp
    subst hpeq
    exact labelB_toLower p0 ((List.all_eq_true.mp hall) p0 hp0)

/-- The final pattern's domain part is non-empty and ends in a letter. -/
theorem simpleDomain_last (de : List Char) (h : simpleDomainB de = true) :
    de ≠ [] ∧ ∀ d, isAlphaC (de.getLastD d) = true := by
  unfold simpleDomainB at h
  simp only [] at h
  rw [Bool.and_eq_true] at h
  obtain ⟨htld, -⟩ := h
  rw [decide_eq_true_eq] at htld
  cases hrev : de.reverse with
  | nil =>
    rw [hrev] at htld
    simp at htld
  | cons c r =>
    rw [hrev] at htld
    by_cases hca : isAlphaC c = true
    · have hde : de = r.reverse ++ [c] := by
        have h2 := congrArg List.reverse hrev
        rw [List.reverse_reverse] at h2
        rw [h2]
        simp
      constructor
      · intro hn
        rw [hn] at hrev
        exact List.noConfusion hrev
      · intro d
        rw [hde, getLastD_append _ _ (List.cons_ne_nil c []) d]
        exact hca
    · rw [List.takeWhile_cons, if_neg hca] at htld
      simp at htld

/-- A bracketed IP literal is non-empty and ends in the closing
bracket. -/
theorem ipLiteral_last (dm : List Char) (h : ipLiteralB dm = true) :
    dm ≠ [] ∧ ∀ d, dm.getLastD d = ']' := by
  cases dm with
  | nil => cases h
  | cons c rest =>
    unfold ipLiteralB at h
    rw [Bool.and_eq_true] at h
    obtain ⟨-, h2⟩ := h
    split at h2
    · next lc heql =>
      rw [Bool.and_eq_true, decide_eq_true_eq] at h2
      obtain ⟨hlc, -⟩ := h2
      have hne : rest ≠ [] := by
        intro hn
        rw [hn] at heql
        exact Option.noConfusion heql
      have hg := List.getLast?_eq_getLast rest hne
      rw [heql] at hg
      injection hg with hg2
      have hrest : rest.dropLast ++ [']'] = rest := by
        rw [← hlc, hg2]
        exact List.dropLast_append_getLast hne
      refine ⟨List.cons_ne_nil c rest, fun d => ?_⟩
      rw [List.getLastD_cons, ← hrest,
        getLastD_append _ _ (List.cons_ne_nil _ _) c]
      rfl
    · cases h2

/-- Building a full match from a dot-atom local part and a matching
domain. -/
theorem fullMatch_build (l d : List Char) (hl : dotAtomB l = true)
    (hd : domainB d = true) : emailFullMatch (l ++ '@' :: d) = true := by
  obtain ⟨a, arest, hld, hac⟩ := dotAtom_head l hl
  subst hld
  show (if a.toNat = 34 then
      match quotedRest (arest ++ '@' :: d) with
      | some ('@' :: d2) => domainB d2
      | _ => false
    else
      match ((a :: arest) ++ '@' :: d).drop ((((a :: arest) ++ '@' :: d).takeWhile (fun x => decide (x ≠ '@'))).length) with
      | '@' :: d2 => dotAtomB (((a :: arest) ++ '@' :: d).takeWhile (fun x => decide (x ≠ '@'))) && domainB d2
      | _ => false) = true
  rw [if_neg (fun hn => (atomCharB_toNat_ne a hac).2.1 hn)]
  have hall : ∀ x ∈ a :: arest, (fun x => decide (x ≠ '@')) x = true := by
    intro x hx
    rw [decide_eq_true_eq]
    intro heq
    subst heq
    rcases dotAtomB_chars _ hl '@' hx with h1 | h1
    · exact (atomCharB_toNat_ne _ h1).2.2.1 rfl
    · exact absurd h1 (by decide)
  have htw : ((a :: arest) ++ '@' :: d).takeWhile (fun x => decide (x ≠ '@')) = a :: arest := by
    rw [takeWhile_append_of_all _ _ _ hall, List.takeWhile_cons, if_neg (by simp)]
    simp
  rw [htw, List.drop_left]
  show (dotAtomB (a :: arest) && domainB d) = true
  rw [hl, hd]
  rfl

/-- Lowercasing preserves a full match whose lowercased form passes the
stricter final pattern: the final pattern rules out the quoted-local and
IP-literal branches, and the dot-atom and labels branches are closed
under lowercasing. -/
theorem fullMatch_toLower (m : List Char) (hm : emailFullMatch m = true)
    (hfc : finalCheckB (toLowerL m) = true) :
    emailFullMatch (toLowerL m) = true := by
  cases m with
  | nil => cases hm
  | cons c cs =>
    have h2 : (if c.toNat = 34 then
        match quotedRest cs with
        | some ('@' :: d) => domainB d
        | _ => false
      else
        match (c :: cs).drop (((c :: cs).takeWhile (fun x => decide (x ≠ '@'))).length) with
        | '@' :: d => dotAtomB ((c :: cs).takeWhile (fun x => decide (x ≠ '@'))) && domainB d
        | _ => false) = true := hm
    clear hm
    by_cases h34 : c.toNat = 34
    · exfalso
      obtain ⟨le, de, hsplit, -, hloc, -⟩ := finalCheck_decomp _ hfc
      obtain ⟨a, arest, hlea, hac, -⟩ := simpleLocal_chars le hloc
      have hc : c = '"' := char_eq_of_toNat_eq c '"' (by rw [h34]; rfl)
      have hhead : (toLowerL (c :: cs)).headD ' ' = '"' := by
        rw [hc]
        rfl
      have hhead2 : (toLowerL (c :: cs)).headD ' ' = a := by
        rw [hsplit, hlea]
        rfl
      rw [hhead] at hhead2
      rw [← hhead2] at hac
      exact absurd hac (by decide)
    · rw [if_neg h34] at h2
      split at h2
      · next d heq =>
        rw [Bool.and_eq_true] at h2
        obtain ⟨hatom, hdom⟩ := h2
        have hdecomp : c :: cs =
            ((c :: cs).takeWhile (fun x => decide (x ≠ '@'))) ++ '@' :: d := by
          conv_lhs => rw [← takeWhile_append_drop (fun x => decide (x ≠ '@')) (c :: cs)]
          rw [heq]
        have hlow : toLowerL (c :: cs) =
            toLowerL ((c :: cs).takeWhile (fun x => decide (x ≠ '@'))) ++
              '@' :: toLowerL d := by
          conv_lhs => rw [hdecomp]
          show ((c :: cs).takeWhile (fun x => decide (x ≠ '@')) ++ '@' :: d).map toLowerC = _
          rw [List.map_append, List.map_cons]
          rw [show toLowerC '@' = '@' by decide]
          rfl
        unfold domainB at hdom
        rw [Bool.or_eq_true] at hdom
        rcases hdom with hlab | hip
        · rw [hlow]
          refine fullMatch_build _ _ (dotAtomB_toLower _ hatom) ?_
          unfold domainB
          rw [Bool.or_eq_true]
          exact Or.inl (domainLabelsB_toLower _ hlab)
        · exfalso
          obtain ⟨le, de, hsplit, -, -, hsd⟩ := finalCheck_decomp _ hfc
          obtain ⟨hipne, hipl⟩ := ipLiteral_last d hip
          have hm_last : (c :: cs).getLastD ' ' = ']' := by
            conv_lhs => rw [hdecomp]
            rw [show ((c :: cs).takeWhile (fun x => decide (x ≠ '@'))) ++ '@' :: d =
                (((c :: cs).takeWhile (fun x => decide (x ≠ '@'))) ++ ['@']) ++ d by simp,
              getLastD_append _ _ hipne ' ']
            exact hipl ' '
          have he_last : (toLowerL (c :: cs)).getLastD ' ' = ']' := by
            have h3 : ((c :: cs).map toLowerC).getLastD (toLowerC ' ') =
                toLowerC ((c :: cs).getLastD ' ') := getLastD_map toLowerC (c :: cs) ' '
            rw [hm_last, show toLowerC ']' = ']' by decide,
              show toLowerC ' ' = ' ' by decide] at h3
            exact h3
          have healpha : isAlphaC ((toLowerL (c :: cs)).getLastD ' ') = true := by
            obtain ⟨hdne2, hdla⟩ := simpleDomain_last de hsd
            rw [hsplit, show le ++ '@' :: de = (le ++ ['@']) ++ de by simp,
              getLastD_append _ _ hdne2 ' ']
            exact hdla ' '
          rw [he_last] at healpha
          exact absurd healpha (by decide)
      · cases h2

/-- One unfolding step of the findall scan on a cons with positive
fuel. -/
theorem emailFindallAux_step (fuel : Nat) (c : Char) (cs : List Char) :
    emailFindallAux (fuel + 1) (c :: cs) =
      match findEmailLen (c :: cs) (cs.length + 1) with
      | some n => (c :: cs).take n :: emailFindallAux fuel ((c :: cs).drop (max n 1))
      | none => emailFindallAux fuel cs := rfl

/-- The scan emits nothing on the empty string. -/
theorem emailFindallAux_nil (fuel : Nat) : emailFindallAux fuel [] = [] := by
  cases fuel with
  | zero => rfl
  | succ f => rfl

/-- Characters of a joined candidate list: the joining space or a
character of one of the candidates. -/
theorem mem_joinSpace : ∀ (es : List (List Char)) (c : Char),
    c ∈ joinSpace es → c = ' ' ∨ ∃ e ∈ es, c ∈ e := by
  intro es
  induction es with
  | nil => intro c hc; cases hc
  | cons e rest ih =>
    intro c hc
    cases rest with
    | nil => exact Or.inr ⟨e, List.mem_cons_self _ _, hc⟩
    | cons e2 rest2 =>
      have hje : joinSpace (e :: e2 :: rest2) = e ++ ' ' :: joinSpace (e2 :: rest2) := rfl
      rw [hje] at hc
      rcases List.mem_append.mp hc with h1 | h2
      · exact Or.inr ⟨e, List.mem_cons_self _ _, h1⟩
      · rcases List.mem_cons.mp h2 with h3 | h3
        · exact Or.inl h3
        · rcases ih c h3 with h4 | ⟨e3, he3, hce3⟩
          · exact Or.inl h4
          · exact Or.inr ⟨e3, List.mem_cons_of_mem _ he3, hce3⟩

/-- A string holding a space and no backslash never matches the full
email pattern. -/
theorem fullMatch_false_of_space (t : List Char) (hsp : ' ' ∈ t)
    (hbs : '\\' ∉ t) : emailFullMatch t = false := by
  cases hcase : emailFullMatch t with
  | false => rfl
  | true => exact absurd hsp (fullMatch_space t hcase hbs)

/-- The left-to-right maximal-munch scan on a space-joined list of full
matches (none holding a space or a backslash) recovers exactly that
list. -/
theorem emailFindallAux_elems : ∀ (es : List (List Char)),
    (∀ e ∈ es, emailFullMatch e = true ∧ ' ' ∉ e ∧ '\\' ∉ e) →
    ∀ fuel, (joinSpace es).length ≤ fuel →
      emailFindallAux fuel (joinSpace es) = es := by
  intro es
  induction es with
  | nil =>
    intro _ fuel _
    exact emailFindallAux_nil fuel
  | cons e rest ih =>
    intro hprop fuel hfuel
    obtain ⟨hfm, hnsp, hnbs⟩ := hprop e (List.mem_cons_self _ _)
    obtain ⟨c0, cs0, he, -, -⟩ := fullMatch_ends e hfm
    cases rest with
    | nil =>
      have hj : joinSpace [e] = e := rfl
      rw [hj, he] at hfuel ⊢
      cases fuel with
      | zero => simp at hfuel
      | succ f =>
        rw [emailFindallAux_step]
        have hfind : findEmailLen (c0 :: cs0) (cs0.length + 1) =
            some (cs0.length + 1) := by
          apply findEmailLen_eq _ _ _ (Nat.le_refl _)
          · rw [show cs0.length + 1 = (c0 :: cs0).length from rfl, List.take_length,
              ← he]
            exact hfm
          · intro i h1 h2
            exact absurd h2 (by omega)
        rw [hfind]
        show ((c0 :: cs0).take (cs0.length + 1) ::
          emailFindallAux f ((c0 :: cs0).drop (max (cs0.length + 1) 1))) = [c0 :: cs0]
        rw [show max (cs0.length + 1) 1 = cs0.length + 1 by omega,
          show cs0.length + 1 = (c0 :: cs0).length from rfl, List.take_length,
          List.drop_length, emailFindallAux_nil]
    | cons e2 rest2 =>
      have ht : joinSpace (e :: e2 :: rest2) =
          c0 :: (cs0 ++ ' ' :: joinSpace (e2 :: rest2)) := by
        rw [show joinSpace (e :: e2 :: rest2) = e ++ ' ' :: joinSpace (e2 :: rest2)
          from rfl, he]
        rfl
      have hbs_j : '\\' ∉ joinSpace (e :: e2 :: rest2) := by
        intro hm
        rcases mem_joinSpace _ _ hm with h1 | ⟨e3, he3, hce⟩
        · exact absurd h1 (by decide)
        · exact (hprop e3 he3).2.2 hce
      rw [ht] at hbs_j hfuel ⊢
      cases fuel with
      | zero => simp at hfuel
      | succ f =>
        rw [emailFindallAux_step]
        have hfind : findEmailLen (c0 :: (cs0 ++ ' ' :: joinSpace (e2 :: rest2)))
            ((cs0 ++ ' ' :: joinSpace (e2 :: rest2)).length + 1) =
            some (cs0.length + 1) := by
          apply findEmailLen_eq _ _ _ (by simp)
          · rw [List.take_succ_cons, List.take_left, ← he]
            exact hfm
          · intro i h1 h2
            apply fullMatch_false_of_space
            · rw [show c0 :: (cs0 ++ ' ' :: joinSpace (e2 :: rest2)) =
                  (c0 :: cs0) ++ ' ' :: joinSpace (e2 :: rest2) from rfl,
                List.take_append_eq_append_take]
              apply List.mem_append_right
              obtain ⟨k, hk⟩ : ∃ k, i - (c0 :: cs0).length = k + 1 :=
                ⟨i - (c0 :: cs0).length - 1, by simp only [List.length_cons]; omega⟩
              rw [hk, List.take_succ_cons]
              exact List.mem_cons_self _ _
            · intro hm
              exact hbs_j ((List.take_subset _ _) hm)
        rw [hfind]
        show ((c0 :: (cs0 ++ ' ' :: joinSpace (e2 :: rest2))).take (cs0.length + 1) ::
          emailFindallAux f ((c0 :: (cs0 ++ ' ' :: joinSpace (e2 :: rest2))).drop
            (max (cs0.length + 1) 1))) = e :: e2 :: rest2
        rw [show max (cs0.length + 1) 1 = cs0.length + 1 by omega,
          List.take_succ_cons, List.take_left, List.drop_succ_cons, List.drop_left,
          ← he]
        have hf : (joinSpace (e2 :: rest2)).length + 1 ≤ f := by
          simp only [List.length_cons, List.length_append] at hfuel
          omega
        cases f with
        | zero => exact absurd hf (by omega)
        | succ f2 =>
          rw [emailFindallAux_step]
          have hbs_sr : '\\' ∉ ' ' :: joinSpace (e2 :: rest2) := fun hm =>
            hbs_j (List.mem_cons_of_mem c0 (List.mem_append_right cs0 hm))
          have hnone : findEmailLen (' ' :: joinSpace (e2 :: rest2))
              ((joinSpace (e2 :: rest2)).length + 1) = none := by
            apply findEmailLen_eq_none
            intro j hj1 hj2
            apply fullMatch_false_of_space
            · obtain ⟨k, hk⟩ : ∃ k, j = k + 1 := ⟨j - 1, by omega⟩
              rw [hk, List.take_succ_cons]
              exact List.mem_cons_self _ _
            · intro hm
              exact hbs_sr ((List.take_subset _ _) hm)
          rw [hnone]
          show e :: emailFindallAux f2 (joinSpace (e2 :: rest2)) = e :: e2 :: rest2
          rw [ih (fun x hx => hprop x (List.mem_cons_of_mem _ hx)) f2 (by omega)]

/-- The last conjunct of the validation pipeline is the stricter final
pattern. -/
theorem cleanEmailFilter_final (e : List Char) (h : cleanEmailFilter e = true) :
    finalCheckB e = true := by
  unfold cleanEmailFilter at h
  simp only [] at h
  rw [Bool.and_eq_true] at h
  have h2 := h.2
  rw [Bool.and_eq_true] at h2
  exact h2.2

/-- Every extractor output is the stripped, lowercased form of some full
match of the primary pattern. -/
theorem mem_extract_parts (text e : List Char)
    (h : e ∈ extract_emails_from_text text) :
    ∃ m, emailFullMatch m = true ∧ e = toLowerL (stripWs m) := by
  unfold extract_emails_from_text at h
  rw [mem_dedupFirst] at h
  have h1 := (List.mem_filter.mp h).1
  rw [List.mem_map] at h1
  obtain ⟨m, hm, heq⟩ := h1
  exact ⟨m, emailFindall_sound _ m hm, heq.symm⟩

/-- Everything the extractor returns: it passed the pipeline, is a fixed
point of strip and lower, is itself a full match of the primary pattern,
and holds no space, backslash or line break. -/
theorem mem_extract_props (text e : List Char)
    (h : e ∈ extract_emails_from_text text) :
    cleanEmailFilter e = true ∧ toLowerL (stripWs e) = e ∧
    emailFullMatch e = true ∧ ' ' ∉ e ∧ '\\' ∉ e ∧ '\n' ∉ e ∧ '\r' ∉ e := by
  have hclean := mem_extract_clean text e h
  have hfc : finalCheckB e = true := cleanEmailFilter_final e hclean
  obtain ⟨m, hfmm, heq⟩ := mem_extract_parts text e h
  rw [fullMatch_strip m hfmm] at heq
  have hfm : emailFullMatch e = true := by
    subst heq
    exact fullMatch_toLower m hfmm hfc
  have hlower : toLowerL e = e := by
    subst heq
    exact toLowerL_idem m
  have hstrip : stripWs e = e := fullMatch_strip e hfm
  refine ⟨hclean, by rw [hstrip, hlower], hfm, ?_, ?_, ?_, ?_⟩
  · exact finalCheck_no_char e hfc ' ' (by decide)
  · exact finalCheck_no_char e hfc '\\' (by decide)
  · exact finalCheck_no_char e hfc '\n' (by decide)
  · exact finalCheck_no_char e hfc '\r' (by decide)

/-- Normalization fixes a string without line breaks. -/
theorem normalizeText_eq_self (t : List Char)
    (h : ∀ c ∈ t, ¬(c = '\n' ∨ c = '\r')) : normalizeText t = t := by
  unfold normalizeText
  have h2 : ∀ c ∈ t, (fun c => if c = '\n' ∨ c = '\r' then ' ' else c) c = id c := by
    intro c hc
    simp only [id]
    rw [if_neg (h c hc)]
  rw [List.map_congr_left h2, List.map_id]

/-- Folding insertions of fresh, duplicate-free elements appends them. -/
theorem foldl_listInsert_eq : ∀ (es acc : List (List Char)),
    (∀ e ∈ es, e ∉ acc) → es.Nodup → es.foldl listInsert acc = acc ++ es := by
  intro es
  induction es with
  | nil => intro acc _ _; simp
  | cons e rest ih =>
    intro acc hdis hnd
    show rest.foldl listInsert (listInsert acc e) = acc ++ e :: rest
    rw [show listInsert acc e = acc ++ [e] from by
      unfold listInsert
      rw [if_neg (hdis e (List.mem_cons_self _ _))]]
    have hdis2 : ∀ x ∈ rest, x ∉ acc ++ [e] := by
      intro x hx hmem
      rcases List.mem_append.mp hmem with h1 | h2
      · exact hdis x (List.mem_cons_of_mem _ hx) h1
      · rw [List.mem_singleton] at h2
        subst h2
        exact (List.nodup_cons.mp hnd).1 hx
    rw [ih (acc ++ [e]) hdis2 (List.nodup_cons.mp hnd).2]
    simp

/-- Collapsing a duplicate-free list to a set-model is the identity. -/
theorem dedupFirst_eq_self (es : List (List Char)) (h : es.Nodup) :
    dedupFirst es = es := by
  unfold dedupFirst
  rw [foldl_listInsert_eq es [] (fun e _ => List.not_mem_nil e) h,
    List.nil_append]

/-- Re-extraction from a serialized candidate set: on a duplicate-free
list of pipeline survivors that are full matches free of spaces,
backslashes and line breaks, and fixed by strip and lower, the extractor
returns the list itself. -/
theorem extract_of_clean (E : List (List Char))
    (hclean : ∀ e ∈ E, cleanEmailFilter e = true)
    (hfix : ∀ e ∈ E, toLowerL (stripWs e) = e)
    (hfm : ∀ e ∈ E, emailFullMatch e = true ∧ ' ' ∉ e ∧ '\\' ∉ e)
    (hnl : ∀ e ∈ E, '\n' ∉ e ∧ '\r' ∉ e)
    (hnd : E.Nodup) :
    extract_emails_from_text (joinSpace E) = E := by
  unfold extract_emails_from_text
  rw [normalizeText_eq_self _ (by
    intro c hc
    rcases mem_joinSpace E c hc with h1 | ⟨e3, he3, hce⟩
    · subst h1
      decide
    · rintro (h2 | h2) <;> subst h2
      · exact (hnl e3 he3).1 hce
      · exact (hnl e3 he3).2 hce)]
  rw [show emailFindall (joinSpace E) = E from
    emailFindallAux_elems E hfm _ (Nat.le_refl _)]
  rw [List.map_congr_left hfix, List.map_id']
  rw [List.filter_eq_self.mpr hclean]
  exact dedupFirst_eq_self E hnd

/-- Claim C9: the email extractor is idempotent.  For every input string
`S`, serializing the extracted candidate set back to text (joined with a
single space) and extracting again yields exactly the set extracted from
`S` once. -/
theorem C9_extract_idempotent (S : List Char) :
    extract_emails_from_text (joinSpace (extract_emails_from_text S)) =
      extract_emails_from_text S := by
  apply extract_of_clean
  · intro e he
    exact (mem_extract_props S e he).1
  · intro e he
    exact (mem_extract_props S e he).2.1
  · intro e he
    exact ⟨(mem_extract_props S e he).2.2.1, (mem_extract_props S e he).2.2.2.1,
      (mem_extract_props S e he).2.2.2.2.1⟩
  · intro e he
    exact ⟨(mem_extract_props S e he).2.2.2.2.2.1,
      (mem_extract_props S e he).2.2.2.2.2.2⟩
  · unfold extract_emails_from_text
    exact nodup_dedupFirst _
